import Mathlib

/-!
Verification of the snippet virtual-filesystem layer of the vscodeSnippetor
repository.

The development shallowly embeds, in Lean, the pure core of the repository:

* the path algebra and the in-memory filesystem backend from
  `MockFilesystemWrapper.ts` (the repository's deterministic store backend;
  the spec requires the disk and in-memory backends to be observably
  identical, and the mock's private helpers `normalizePath`, `joinPaths`,
  `dirnameFromPath`, `basenameFromPath`, `relativePath` are the repository's
  own pure model of node's posix `path` functions);
* the virtual-path translation of `SnippetorFilesystemsWrapper.ts`
  (`toAbsolutePath`, `toRelativePath`, `isRootFolder`, `exists`, `remove`);
* the Move / Copy / Remove command handlers of
  `SnippetExplorerCommandHandler.ts`;
* the active-document tracker `SnippetExplorerListenerHelper` of
  `SnippetViewHandler.ts`.

JavaScript strings are represented as `List Char` so that every string
operation of the source is an executable, inductively analysable Lean
function.
-/

set_option autoImplicit false

/-- A JavaScript string, represented as its list of characters. -/
abbrev Str : Type := List Char

namespace Snippetor

/-- Boolean test that `a` is a prefix of `b` (JS `b.startsWith(a)`). -/
def strHasPre : Str → Str → Bool
  | [], _ => true
  | _ :: _, [] => false
  | a :: as, b :: bs => if a = b then strHasPre as bs else false

/-- JS whitespace test for the characters `trim` removes (ASCII subset). -/
def isWsChar (c : Char) : Bool :=
  c = ' ' || c = '\t' || c = '\n' || c = '\r'

/-- JS `s.trim()`: drop whitespace from both ends. -/
def jsTrim (s : Str) : Str :=
  ((s.dropWhile isWsChar).reverse.dropWhile isWsChar).reverse

/-- JS `s.split('/')`: split on every slash, keeping empty pieces.
The result is always non-empty. -/
def splitSlash : Str → List Str
  | [] => [[]]
  | c :: rest =>
    if c = '/' then [] :: splitSlash rest
    else
      match splitSlash rest with
      | s :: ss => (c :: s) :: ss
      | [] => [[c]]

/-- The non-empty slash-separated segments of a string:
JS `s.split('/').filter(p => p.length > 0)`. -/
def segsOf (s : Str) : List Str :=
  (splitSlash s).filter (fun p => p ≠ [])

/-- One step of the `.`/`..` resolution loop of
`MockFilesystemWrapper.normalizePath`. -/
def resolveStep (resolved : List Str) (part : Str) : List Str :=
  if part = ['.'] then resolved
  else if part = ['.', '.'] then resolved.dropLast
  else resolved ++ [part]

/-- The `.`/`..` resolution loop of `MockFilesystemWrapper.normalizePath`. -/
def resolveDots (parts : List Str) : List Str :=
  parts.foldl resolveStep []

/-- JS `list.join('/')`. -/
def joinSegs : List Str → Str
  | [] => []
  | [x] => x
  | x :: y :: rest => x ++ '/' :: joinSegs (y :: rest)

/-- JS `s.replace(/\/$/, '')`: drop one trailing slash if present. -/
def stripTrailingSlash (s : Str) : Str :=
  if s.getLast? = some '/' then s.dropLast else s

/-- `MockFilesystemWrapper.normalizePath`: split on `/`, drop empty
segments, resolve `.` and `..`, and rebuild an absolute path. -/
def normalizePath (p : Str) : Str :=
  let resolved := resolveDots (segsOf p)
  let normalized := '/' :: joinSegs resolved
  if normalized = ['/'] then normalized else stripTrailingSlash normalized

/-- `MockFilesystemWrapper.joinPaths`: drop empty pieces, join with `/`,
normalize; the empty join is the root. -/
def joinPaths (paths : List Str) : Str :=
  let filtered := paths.filter (fun p => p ≠ [])
  if filtered = [] then ['/'] else normalizePath (joinSegs filtered)

/-- `MockFilesystemWrapper.isAbsolutePath`: JS `path.startsWith('/')`. -/
def isAbsolutePath (s : Str) : Bool :=
  strHasPre ['/'] s

/-- Split a string at its last slash: `some (before, after)` when the
string holds a slash (used for JS `lastIndexOf('/')` plus `substring`). -/
def breakLast : Str → Option (Str × Str)
  | [] => none
  | c :: rest =>
    match breakLast rest with
    | some (a, b) => some (c :: a, b)
    | none => if c = '/' then some ([], rest) else none

/-- `MockFilesystemWrapper.dirnameFromPath`. -/
def dirnameFromPath (p : Str) : Str :=
  if p = ['/'] ∨ p = [] then ['/']
  else
    let n := normalizePath p
    match breakLast n with
    | none => ['.']
    | some ([], _) => ['/']
    | some (pre, _) => pre

/-- `MockFilesystemWrapper.basenameFromPath`. -/
def basenameFromPath (p : Str) : Str :=
  if p = ['/'] ∨ p = [] then []
  else
    let n := normalizePath p
    match breakLast n with
    | none => n
    | some (_, suf) => suf

/-- Length of the common leading run of two segment lists (the `while`
loop of `MockFilesystemWrapper.relativePath`). -/
def commonPrefixLen : List Str → List Str → Nat
  | a :: as, b :: bs => if a = b then commonPrefixLen as bs + 1 else 0
  | _, _ => 0

/-- `MockFilesystemWrapper.relativePath`: relative path from `f` to `t`. -/
def relativePath (f t : Str) : Str :=
  let fn := normalizePath f
  let tn := normalizePath t
  if fn = tn then ['.']
  else
    let fp := segsOf fn
    let tp := segsOf tn
    let c := commonPrefixLen fp tp
    let up := fp.length - c
    let downs := tp.drop c
    let parts := List.replicate up ['.', '.'] ++ downs
    if parts = [] then ['.'] else joinSegs parts

/-- JS `s.replace(/\\/g, '/')`: turn every backslash into a slash. -/
def backToFwd (s : Str) : Str :=
  s.map (fun c => if c = '\\' then '/' else c)

end Snippetor

namespace Snippetor

/-- A root configuration entry (`{folder, mapping}` of the config). -/
structure SnippetMapping where
  folder : Str
  mapping : Str
  deriving DecidableEq, Repr

/-- An entry of the in-memory store (`FileEntry` of
`MockFilesystemWrapper.ts`; the encoding field is dropped since no claim
observes it). -/
structure FileEntry where
  content : Str
  isDirectory : Bool
  deriving DecidableEq, Repr

/-- The in-memory store cache: an association list mirroring the JS `Map`
(insertion-ordered, keys unique). -/
abbrev Cache : Type := List (Str × FileEntry)

/-- JS `map.has(k)`. -/
def cacheHas (c : Cache) (k : Str) : Bool :=
  c.any (fun e => e.1 = k)

/-- JS `map.get(k)`. -/
def cacheGet (c : Cache) (k : Str) : Option FileEntry :=
  (c.find? (fun e => e.1 = k)).map (fun e => e.2)

/-- JS `map.set(k, v)`: replace in place when present, else append. -/
def cacheSet (c : Cache) (k : Str) (v : FileEntry) : Cache :=
  if cacheHas c k then c.map (fun e => if e.1 = k then (k, v) else e)
  else c ++ [(k, v)]

/-- JS `map.delete(k)`. -/
def cacheDelete (c : Cache) (k : Str) : Cache :=
  c.filter (fun e => e.1 ≠ k)

/-- The wrapper state: configured roots and the store cache
(`MockFilesystemWrapper`'s `rootPath`, `folders` and `fileCache`). -/
structure Wrapper where
  rootPath : Str
  folders : List SnippetMapping
  fileCache : Cache
  deriving DecidableEq, Repr

/-- `toAbsolutePath` of `SnippetorFilesystemsWrapper.ts` (identical in the
in-memory backend): translate a virtual path to a physical one, failing on
empty input or an unknown root. -/
def toAbsolutePath (w : Wrapper) (rel : Str) : Except Str Str :=
  if rel = [] ∨ jsTrim rel = [] then .error ("Empty relative path".toList)
  else if isAbsolutePath rel then .ok (normalizePath rel)
  else
    let normalized :=
      ((rel.dropWhile (fun c => c = '/')).reverse.dropWhile
        (fun c => c = '/')).reverse
    match segsOf normalized with
    | [] => .error ("Invalid relative path".toList)
    | folderName :: restParts =>
      match w.folders.find? (fun f => f.folder = folderName) with
      | none =>
        .error ("Folder not found in config: ".toList ++ folderName)
      | some f =>
        let subPath := joinSegs restParts
        .ok (if subPath ≠ [] then joinPaths [f.mapping, subPath]
             else f.mapping)

/-- The root-matching loop shared verbatim by `toRelativePath` of
`SnippetorFilesystemsWrapper.ts` and of `MockFilesystemWrapper.ts`: scan
the configured roots in order for the first whose physical prefix covers
`normalized`, falling back to a path relative to the session root. -/
def matchRoots (w : Wrapper) (normalized : Str) :
    List SnippetMapping → Str
  | [] => backToFwd (relativePath w.rootPath normalized)
  | f :: rest =>
    let nm := normalizePath f.mapping
    if strHasPre (nm ++ ['/']) normalized || normalized = nm then
      let rel := relativePath nm normalized
      if rel = [] ∨ rel = ['.'] then f.folder
      else backToFwd (f.folder ++ '/' :: rel)
    else matchRoots w normalized rest

/-- `toRelativePath` of `SnippetorFilesystemsWrapper.ts`: normalize, then
match against each root's physical prefix in configuration order. -/
def toRelativePathDisk (w : Wrapper) (absolutePath : Str) : Str :=
  matchRoots w (normalizePath absolutePath) w.folders

/-- `toRelativePath` of `MockFilesystemWrapper.ts`: as the disk version,
but a non-absolute input is returned stripped of outer slashes. -/
def toRelativePathMock (w : Wrapper) (pathInput : Str) : Str :=
  if pathInput = [] then pathInput
  else if !isAbsolutePath pathInput then
    let normalized :=
      ((pathInput.dropWhile (fun c => c = '/')).reverse.dropWhile
        (fun c => c = '/')).reverse
    if normalized ≠ [] then normalized else pathInput
  else
    matchRoots w (normalizePath pathInput) w.folders

/-- `isRootFolder`: the path has exactly one segment and it names a
configured root. -/
def isRootFolder (w : Wrapper) (rel : Str) : Bool :=
  if rel = [] ∨ jsTrim rel = [] then false
  else
    let normalized :=
      ((rel.dropWhile (fun c => c = '/')).reverse.dropWhile
        (fun c => c = '/')).reverse
    match segsOf normalized with
    | [p] => w.folders.any (fun f => f.folder = p)
    | _ => false

/-- `exists`: resolve and look up, with every failure caught as `false`. -/
def existsW (w : Wrapper) (rel : Str) : Bool :=
  match toAbsolutePath w rel with
  | .ok a => cacheHas w.fileCache a
  | .error _ => false

/-- The `isDirectory()` observation of `stat`; throws when the entry is
missing, as both backends do. -/
def statIsDir (w : Wrapper) (rel : Str) : Except Str Bool :=
  match toAbsolutePath w rel with
  | .error e => .error e
  | .ok a =>
    match cacheGet w.fileCache a with
    | none => .error ("Path does not exist: ".toList ++ rel)
    | some e => .ok e.isDirectory

/-- `dirname`: to absolute, parent, back to relative. -/
def dirnameW (w : Wrapper) (rel : Str) : Except Str Str :=
  match toAbsolutePath w rel with
  | .error e => .error e
  | .ok a => .ok (toRelativePathMock w (dirnameFromPath a))

/-- `basename`: to absolute, then the physical basename. -/
def basenameW (w : Wrapper) (rel : Str) : Except Str Str :=
  match toAbsolutePath w rel with
  | .error e => .error e
  | .ok a => .ok (basenameFromPath a)

/-- `join`: resolve each piece if possible (unresolvable pieces are kept
as raw subpaths), join physically, translate back. -/
def joinW (w : Wrapper) (paths : List Str) : Str :=
  let absolutePaths := paths.map (fun p =>
    match toAbsolutePath w p with
    | .ok a => a
    | .error _ => p)
  toRelativePathMock w (joinPaths absolutePaths)

/-- `remove` of `MockFilesystemWrapper.ts`: throws on a missing path and
on a non-empty directory without `recursive`; otherwise deletes the entry
and, for a directory, every cached descendant. -/
def removeW (w : Wrapper) (rel : Str) (recursive : Bool) :
    Except Str Wrapper :=
  match toAbsolutePath w rel with
  | .error e => .error e
  | .ok abs =>
    match cacheGet w.fileCache abs with
    | none => .error ("Path does not exist: ".toList ++ rel)
    | some entry =>
      if entry.isDirectory then
        let pre := if abs = ['/'] then [] else abs ++ ['/']
        let hasChildren := w.fileCache.any
          (fun e => strHasPre pre e.1 && e.1 ≠ abs)
        if hasChildren && !recursive then
          .error ("Directory is not empty: ".toList ++ rel)
        else
          let c₁ := w.fileCache.filter
            (fun e => !(strHasPre pre e.1 && e.1 ≠ abs))
          .ok { w with fileCache := cacheDelete c₁ abs }
      else
        .ok { w with fileCache := cacheDelete w.fileCache abs }

/-- `remove` of `SnippetorFilesystemsWrapper.ts` (the disk backend),
modelled on the same cache state: `statSync` throws on a missing path;
a directory is removed with `rmSync {recursive: true, force: true}` -
unconditionally recursive, whatever the `recursive` argument says - and a
file with `unlinkSync`. -/
def removeDisk (w : Wrapper) (rel : Str) (_recursive : Bool) :
    Except Str Wrapper :=
  match toAbsolutePath w rel with
  | .error e => .error e
  | .ok abs =>
    match cacheGet w.fileCache abs with
    | none => .error ("Path does not exist: ".toList ++ rel)
    | some entry =>
      if entry.isDirectory then
        let pre := if abs = ['/'] then [] else abs ++ ['/']
        let c₁ := w.fileCache.filter
          (fun e => !(strHasPre pre e.1 && e.1 ≠ abs))
        .ok { w with fileCache := cacheDelete c₁ abs }
      else
        .ok { w with fileCache := cacheDelete w.fileCache abs }

/-- `rename` of `MockFilesystemWrapper.ts`: throws when the source is
missing; a directory carries every cached descendant along, preserving
the suffix relative to the source. -/
def renameW (w : Wrapper) (oldRel newRel : Str) : Except Str Wrapper :=
  match toAbsolutePath w oldRel with
  | .error e => .error e
  | .ok oldAbs =>
    match toAbsolutePath w newRel with
    | .error e => .error e
    | .ok newAbs =>
      match cacheGet w.fileCache oldAbs with
      | none => .error ("Source path does not exist: ".toList ++ oldRel)
      | some entry =>
        if entry.isDirectory then
          let c₁ := cacheSet w.fileCache newAbs
            { content := [], isDirectory := true }
          let pre := if oldAbs = ['/'] then [] else oldAbs ++ ['/']
          let newPre := if newAbs = ['/'] then [] else newAbs ++ ['/']
          let children := w.fileCache.filter
            (fun e => strHasPre pre e.1 && e.1 ≠ oldAbs)
          let c₂ := children.foldl (fun c e =>
            cacheDelete
              (cacheSet c (newPre ++ e.1.drop pre.length) e.2) e.1) c₁
          .ok { w with fileCache := cacheDelete c₂ oldAbs }
        else
          .ok { w with fileCache :=
            cacheDelete (cacheSet w.fileCache newAbs entry) oldAbs }

/-- `copy` of `MockFilesystemWrapper.ts`: a file copy duplicates the
entry; a directory copy reproduces every cached descendant under the
destination (snapshot iteration; the handlers reject a copy into the
source's own subtree before ever reaching this operation). -/
def copyW (w : Wrapper) (srcRel dstRel : Str) : Except Str Wrapper :=
  match toAbsolutePath w srcRel with
  | .error e => .error e
  | .ok srcAbs =>
    match toAbsolutePath w dstRel with
    | .error e => .error e
    | .ok dstAbs =>
      match cacheGet w.fileCache srcAbs with
      | none => .error ("Source path does not exist: ".toList ++ srcRel)
      | some entry =>
        if entry.isDirectory then
          let c₁ := cacheSet w.fileCache dstAbs
            { content := [], isDirectory := true }
          let srcPre := if srcAbs = ['/'] then [] else srcAbs ++ ['/']
          let dstPre := if dstAbs = ['/'] then [] else dstAbs ++ ['/']
          let children := w.fileCache.filter
            (fun e => strHasPre srcPre e.1 && e.1 ≠ srcAbs)
          let c₂ := children.foldl (fun c e =>
            cacheSet c (dstPre ++ e.1.drop srcPre.length) e.2) c₁
          .ok { w with fileCache := c₂ }
        else
          let copied : FileEntry :=
            { content := entry.content, isDirectory := false }
          .ok { w with fileCache := cacheSet w.fileCache dstAbs copied }

end Snippetor

namespace Snippetor

/-- A mutation event delivered to the `SnippetExplorerListener`. -/
inductive MutEvent where
  | moved (oldAbs newAbs : Str) (isFolder : Bool)
  | overwritten (abs : Str) (isFolder : Bool)
  | removed (abs : Str) (isFolder : Bool)
  deriving DecidableEq, Repr

/-- How a handler invocation ended: an uncaught exception, or a
`sendCallback(success, error, ...)` reply. -/
inductive Reply where
  | threw (msg : Str)
  | replied (success : Bool) (error : Str)
  deriving DecidableEq, Repr

/-- The observable outcome of one handler invocation: the store state it
leaves behind, the mutation events it emitted (in order), and its reply. -/
structure ExecResult where
  state : Wrapper
  events : List MutEvent
  reply : Reply
  deriving DecidableEq, Repr

/-- `BaseCommandHandler.checkSourceAndDestinationPaths`: root-boundary
guard (`.error` models an exception escaping the check, `some` a
validation message). -/
def checkSourceAndDestinationPaths (w : Wrapper)
    (source destinationFolder baseName : Str) (isFolder : Bool) :
    Except Str (Option Str) :=
  if isRootFolder w source then
    .ok (some ("Cannot move top-level folder: ".toList ++ baseName))
  else if isRootFolder w destinationFolder then
    .ok (some ("Failed to drop to the root folder.".toList))
  else if !isFolder then
    match dirnameW w source with
    | .error e => .error e
    | .ok baseDir =>
      if isRootFolder w baseDir then
        .ok (some ("Failed to drop file to the root folder.".toList))
      else .ok none
  else .ok none

/-- `BaseCommandHandler.checkSourceDestinationNotEqual`: containment and
in-place-reorder guard. -/
def checkSourceDestinationNotEqual (w : Wrapper)
    (source destination : Str) (isFolder : Bool) :
    Except Str (Option Str) :=
  if isFolder then
    if source = destination ∨
        strHasPre (source ++ ['/']) destination = true then
      .ok (some ("Failed to move folder.".toList))
    else .ok none
  else
    match dirnameW w source with
    | .error e => .error e
    | .ok baseDir =>
      if baseDir = destination then
        .ok (some ("There is no file sort operation support.".toList))
      else .ok none

/-- `BaseCommandHandler.checkDestinationExistsAndIsDir`. -/
def checkDestinationExistsAndIsDir (w : Wrapper)
    (destinationFolder : Str) : Except Str (Option Str) :=
  if !existsW w destinationFolder then
    .ok (some ("Destination does not exist.".toList))
  else
    match statIsDir w destinationFolder with
    | .error e => .error e
    | .ok isDir =>
      if !isDir then .ok (some ("Destination is not a directory.".toList))
      else .ok none

/-- `MoveCommandHandler.checkFileMoveOverwrite`. -/
def checkFileMoveOverwrite (w : Wrapper) (destination baseName : Str)
    (overwrite : Bool) : Except Str (Option Str) :=
  if !existsW w destination then .ok none
  else
    match statIsDir w destination with
    | .error e => .error e
    | .ok destIsFolder =>
      if destIsFolder then
        .ok (some ("Cannot overwrite folder \"".toList ++ baseName ++
          "\" with file.".toList))
      else if !overwrite then
        .ok (some ("Destination \"".toList ++ baseName ++
          "\" already exists.".toList))
      else .ok none

/-- `MoveCommandHandler.checkFolderMoveOverwrite`. -/
def checkFolderMoveOverwrite (w : Wrapper) (destination baseName : Str)
    (overwrite : Bool) : Except Str (Option Str) :=
  if !existsW w destination then .ok none
  else
    match statIsDir w destination with
    | .error e => .error e
    | .ok destIsFolder =>
      if !destIsFolder then
        .ok (some ("Cannot overwrite file \"".toList ++ baseName ++
          "\" with folder.".toList))
      else if !overwrite then
        .ok (some ("Destination folder \"".toList ++ baseName ++
          "\" already exists.".toList))
      else .ok none

/-- The pre-rename overwrite-removal block of `MoveCommandHandler.execute`
(`exists && overwrite`: read the stats, then remove inside its own
try/catch). `.error` carries the handler's early exit. -/
def overwriteRemovalStep (w : Wrapper) (destination : Str)
    (overwrite : Bool) : Except Reply Wrapper :=
  if existsW w destination && overwrite then
    match statIsDir w destination with
    | .error e => .error (.threw e)
    | .ok _ =>
      match removeW w destination true with
      | .error e =>
        .error (.replied false ("Failed to remove existing item: ".toList
          ++ e))
      | .ok w₂ => .ok w₂
  else .ok w

/-- The try/catch block of `MoveCommandHandler.execute` around the
physical rename, the notification message and the listener events. -/
def moveFinalStep (w : Wrapper) (sourcePath targetPath destination : Str)
    (isFolder overwrite : Bool) : ExecResult :=
  match renameW w sourcePath destination with
  | .error e => ⟨w, [], .replied false ("Move failed: ".toList ++ e)⟩
  | .ok w₂ =>
    match basenameW w₂ targetPath with
    | .error e => ⟨w₂, [], .replied false ("Move failed: ".toList ++ e)⟩
    | .ok _ =>
      match toAbsolutePath w₂ sourcePath with
      | .error e =>
        ⟨w₂, [], .replied false ("Move failed: ".toList ++ e)⟩
      | .ok srcAbs =>
        match toAbsolutePath w₂ destination with
        | .error e =>
          ⟨w₂, [], .replied false ("Move failed: ".toList ++ e)⟩
        | .ok dstAbs =>
          let events :=
            if overwrite then
              if existsW w₂ destination then
                [MutEvent.overwritten dstAbs isFolder]
              else [MutEvent.removed dstAbs isFolder]
            else [MutEvent.moved srcAbs dstAbs isFolder]
          ⟨w₂, events, .replied true []⟩

/-- `MoveCommandHandler.execute`: the full move pipeline over the store
state, with the listener installed. -/
def moveExecute (w : Wrapper) (sourcePath targetPath : Str)
    (isFolder overwrite : Bool) : ExecResult :=
  match basenameW w sourcePath with
  | .error e => ⟨w, [], .threw e⟩
  | .ok baseName =>
    let destination := joinW w [targetPath, baseName]
    match checkSourceAndDestinationPaths w sourcePath targetPath
        baseName isFolder with
    | .error e => ⟨w, [], .threw e⟩
    | .ok (some err) => ⟨w, [], .replied false err⟩
    | .ok none =>
      match checkSourceDestinationNotEqual w sourcePath destination
          isFolder with
      | .error e => ⟨w, [], .threw e⟩
      | .ok (some err) => ⟨w, [], .replied false err⟩
      | .ok none =>
        match checkDestinationExistsAndIsDir w targetPath with
        | .error e => ⟨w, [], .threw e⟩
        | .ok (some err) =>
          ⟨w, [], .replied false ("Failed to drop: ".toList ++ err)⟩
        | .ok none =>
          match (if isFolder then
              checkFolderMoveOverwrite w destination baseName overwrite
            else
              checkFileMoveOverwrite w destination baseName overwrite) with
          | .error e => ⟨w, [], .threw e⟩
          | .ok (some err) => ⟨w, [], .replied false err⟩
          | .ok none =>
            match overwriteRemovalStep w destination overwrite with
            | .error r => ⟨w, [], r⟩
            | .ok w₁ =>
              moveFinalStep w₁ sourcePath targetPath destination
                isFolder overwrite

/-- JS `isFolder ? 'folder' : 'file'` of `CopyCommandHandler`. -/
def typeName (b : Bool) : Str :=
  if b then "folder".toList else "file".toList

/-- The destination-occupied negotiation of `CopyCommandHandler.execute`:
type mismatch, overwrite refusal, or removal of the occupant. -/
def copyOccupiedStep (w : Wrapper) (destination : Str)
    (isFolder overwrite : Bool) : Except Reply Wrapper :=
  if existsW w destination then
    match statIsDir w destination with
    | .error e => .error (.threw e)
    | .ok destIsFolder =>
      if destIsFolder ≠ isFolder then
        .error (.replied false ("Cannot overwrite ".toList ++
          typeName destIsFolder ++ " with ".toList ++
          typeName isFolder ++ ".".toList))
      else if !overwrite then
        .error (.replied false ("Destination already exists.".toList))
      else
        match removeW w destination true with
        | .error e =>
          .error (.replied false
            ("Failed to remove existing item: ".toList ++ e))
        | .ok w₂ => .ok w₂
  else .ok w

/-- The try/catch block of `CopyCommandHandler.execute` around the
physical copy, the notification message and the listener event. -/
def copyFinalStep (w : Wrapper) (sourcePath targetPath destination : Str)
    (isFolder overwrite : Bool) : ExecResult :=
  match copyW w sourcePath destination with
  | .error e => ⟨w, [], .replied false ("Copy failed: ".toList ++ e)⟩
  | .ok w₂ =>
    match basenameW w₂ targetPath with
    | .error e => ⟨w₂, [], .replied false ("Copy failed: ".toList ++ e)⟩
    | .ok _ =>
      match toAbsolutePath w₂ destination with
      | .error e =>
        ⟨w₂, [], .replied false ("Copy failed: ".toList ++ e)⟩
      | .ok dstAbs =>
        let events :=
          if overwrite && existsW w₂ destination then
            [MutEvent.overwritten dstAbs isFolder]
          else []
        ⟨w₂, events, .replied true []⟩

/-- `CopyCommandHandler.execute`: the full copy pipeline over the store
state, with the listener installed. -/
def copyExecute (w : Wrapper) (sourcePath targetPath : Str)
    (isFolder overwrite : Bool) : ExecResult :=
  match basenameW w sourcePath with
  | .error e => ⟨w, [], .threw e⟩
  | .ok baseName =>
    let destination := joinW w [targetPath, baseName]
    if isRootFolder w sourcePath then
      ⟨w, [], .replied false
        ("Cannot copy top-level folder: ".toList ++ baseName)⟩
    else if isFolder = true ∧ (sourcePath = destination ∨
        strHasPre (sourcePath ++ ['/']) destination = true) then
      ⟨w, [], .replied false ("Failed to copy folder.".toList)⟩
    else
      match copyOccupiedStep w destination isFolder overwrite with
      | .error r => ⟨w, [], r⟩
      | .ok w₁ =>
        copyFinalStep w₁ sourcePath targetPath destination
          isFolder overwrite

/-- `RemoveCommandHandler.execute`: `confirmed` is the user's answer to
the modal `Delete "name"?` prompt. On confirmation the listener is
notified before the physical delete. -/
def removeExecute (w : Wrapper) (fullPath : Str) (isFolder : Bool)
    (confirmed : Bool) : ExecResult :=
  if confirmed then
    match toAbsolutePath w fullPath with
    | .error e => ⟨w, [], .replied false ("Delete failed: ".toList ++ e)⟩
    | .ok abs =>
      match removeW w fullPath true with
      | .error e =>
        ⟨w, [MutEvent.removed abs isFolder],
          .replied false ("Delete failed: ".toList ++ e)⟩
      | .ok w₂ => ⟨w₂, [MutEvent.removed abs isFolder], .replied true []⟩
  else ⟨w, [], .replied true []⟩

end Snippetor

namespace Snippetor

/-- The active-document tracker state of `SnippetExplorerListenerHelper`
(`activeFile = ''` is the Empty state). -/
structure TrackerState where
  activeFile : Str
  deriving DecidableEq, Repr

/-- An observable action of the tracker: a `sendActiveFileUpdate`
notification to the session, a warning message, or a `closeSnippet`. -/
inductive TrackerAction where
  | update (reason : Str) (path : Str)
  | warned (msg : Str)
  | closed
  deriving DecidableEq, Repr

/-- `MockFilesystemWrapper.movePathRelativeTo`: re-base a path from
`oldBase` to `newBase`, preserving the relative suffix. -/
def movePathRelativeTo (oldBase filePath newBase : Str) : Str :=
  joinPaths [newBase, relativePath oldBase filePath]

/-- `SnippetExplorerListenerHelper.isActiveFile`. -/
def isActiveFile (st : TrackerState) (fullPath : Str) : Bool :=
  st.activeFile ≠ [] && normalizePath st.activeFile = normalizePath fullPath

/-- `SnippetExplorerListenerHelper.onNodeRenamed`: re-base the active
path under a renamed ancestor folder, or adopt a renamed file's new
name. -/
def onNodeRenamed (st : TrackerState) (oldNode newNode : Str)
    (isFolder : Bool) : TrackerState × List TrackerAction :=
  if isFolder then
    if st.activeFile ≠ [] ∧
        strHasPre (oldNode ++ ['/']) st.activeFile = true then
      let newFile := movePathRelativeTo oldNode st.activeFile newNode
      (⟨newFile⟩,
        [.update ("moved (folder renamed)".toList) newFile])
    else (st, [])
  else
    if isActiveFile st oldNode then
      (⟨newNode⟩, [.update ("renamed".toList) newNode])
    else (st, [])

/-- `SnippetExplorerListenerHelper.onNodeMoved`: same shape as the
rename handler, with different notification reasons. -/
def onNodeMoved (st : TrackerState) (oldNode newNode : Str)
    (isFolder : Bool) : TrackerState × List TrackerAction :=
  if isFolder then
    if st.activeFile ≠ [] ∧
        strHasPre (oldNode ++ ['/']) st.activeFile = true then
      let newFile := movePathRelativeTo oldNode st.activeFile newNode
      (⟨newFile⟩, [.update ("moved (folder moved)".toList) newFile])
    else (st, [])
  else
    if isActiveFile st oldNode then
      (⟨newNode⟩, [.update ("moved".toList) newNode])
    else (st, [])

/-- `SnippetExplorerListenerHelper.onNodeRemoved`: retire the active
document when it, or an ancestor folder, was removed. -/
def onNodeRemoved (st : TrackerState) (node : Str) (isFolder : Bool) :
    TrackerState × List TrackerAction :=
  if st.activeFile = [] then (st, [])
  else
    let normalizedNode := normalizePath node
    let normalizedActiveFile := normalizePath st.activeFile
    if isFolder then
      if strHasPre (normalizedNode ++ ['/']) normalizedActiveFile then
        (⟨[]⟩,
          [.warned ("Snippet file \"".toList ++
            basenameFromPath normalizedActiveFile ++
            "\" is no longer accessible: parent folder \"".toList ++
            basenameFromPath normalizedNode ++
            "\" was removed.".toList),
          .closed])
      else (st, [])
    else
      if normalizedNode = normalizedActiveFile then
        (⟨[]⟩,
          [.warned ("Snippet file was removed: ".toList ++
            basenameFromPath node),
          .closed])
      else (st, [])

/-- Modelled from the spec (section 3, "Two virtual paths denote the same
node iff they normalize identically"; section 8 `normalize(p)`): the
normalization of a virtual path - drop outer and repeated slashes,
resolve `.` and `..` segments, rejoin with single slashes. The repository
has no virtual-path normalizer of its own; this definition is the
spec-side term of the round-trip claim. -/
def normalizeVirtualSpec (p : Str) : Str :=
  joinSegs (resolveDots (segsOf p))

end Snippetor

namespace Snippetor

theorem strHasPre_self_append (a t : Str) : strHasPre a (a ++ t) = true := by
  induction a with
  | nil => rfl
  | cons c cs ih => simp [strHasPre, ih]

theorem strHasPre_iff (a b : Str) :
    strHasPre a b = true ↔ ∃ t, b = a ++ t := by
  constructor
  · intro h
    induction a generalizing b with
    | nil => exact ⟨b, rfl⟩
    | cons c cs ih =>
      cases b with
      | nil => simp [strHasPre] at h
      | cons d ds =>
        simp only [strHasPre] at h
        by_cases hc : c = d
        · subst hc
          simp only [if_pos rfl] at h
          obtain ⟨t, ht⟩ := ih ds h
          exact ⟨t, by simp [ht]⟩
        · simp [if_neg hc] at h
  · rintro ⟨t, rfl⟩
    exact strHasPre_self_append a t

theorem pre_snoc {x y : Str} {c : Char}
    (h : strHasPre x (y ++ [c]) = true) :
    strHasPre x y = true ∨ x = y ++ [c] := by
  obtain ⟨t, ht⟩ := (strHasPre_iff x (y ++ [c])).1 h
  rcases List.eq_nil_or_concat t with rfl | ⟨t₀, tl, rfl⟩
  · right
    simpa using ht.symm
  · left
    have hy : y = x ++ t₀ := by
      have := congrArg List.dropLast ht
      simpa [List.dropLast_concat, ← List.append_assoc] using this
    rw [hy]
    exact strHasPre_self_append x t₀

theorem pre_comparable {a b c : Str} (ha : strHasPre a c = true)
    (hb : strHasPre b c = true) :
    strHasPre a b = true ∨ strHasPre b a = true := by
  obtain ⟨t, ht⟩ := (strHasPre_iff a c).1 ha
  obtain ⟨u, hu⟩ := (strHasPre_iff b c).1 hb
  have hab : a ++ t = b ++ u := by rw [← ht, ← hu]
  rcases le_total a.length b.length with hle | hle
  · left
    rw [strHasPre_iff]
    refine ⟨b.drop a.length, ?_⟩
    have htake : b.take a.length = a := by
      have h1 : (a ++ t).take a.length = a := by simp
      rw [hab] at h1
      rwa [List.take_append_eq_append_take, Nat.sub_eq_zero_of_le hle,
        List.take_zero, List.append_nil] at h1
    conv_lhs => rw [← List.take_append_drop a.length b, htake]
  · right
    rw [strHasPre_iff]
    refine ⟨a.drop b.length, ?_⟩
    have htake : a.take b.length = b := by
      have h1 : (b ++ u).take b.length = b := by simp
      rw [← hab] at h1
      rwa [List.take_append_eq_append_take, Nat.sub_eq_zero_of_le hle,
        List.take_zero, List.append_nil] at h1
    conv_lhs => rw [← List.take_append_drop b.length a, htake]

theorem splitSlash_ne_nil (s : Str) : splitSlash s ≠ [] := by
  cases s with
  | nil => simp [splitSlash]
  | cons c cs =>
    simp only [splitSlash]
    split
    · simp
    · split
      · simp
      · simp

end Snippetor

namespace Snippetor

/-- A canonical path segment: non-empty, free of slashes, backslashes and
whitespace, and not a `.` or `..` dot segment. -/
def canonSeg (x : Str) : Bool :=
  !x.isEmpty &&
  x.all (fun c => !(c = '/') && !(c = '\\') && !isWsChar c) &&
  !(x = ['.'] : Bool) && !(x = ['.', '.'] : Bool)

theorem canonSeg_ne_nil {x : Str} (h : canonSeg x = true) : x ≠ [] := by
  simp only [canonSeg, Bool.and_eq_true, Bool.not_eq_true'] at h
  intro hx
  subst hx
  simp at h

theorem canonSeg_no_slash {x : Str} (h : canonSeg x = true) :
    ∀ c ∈ x, ¬ c = '/' := by
  simp only [canonSeg, Bool.and_eq_true, List.all_eq_true] at h
  intro c hc
  have := h.1.1.2 c hc
  simp only [Bool.and_eq_true, Bool.not_eq_true', decide_eq_false_iff_not]
    at this
  exact this.1.1

theorem canonSeg_no_ws {x : Str} (h : canonSeg x = true) :
    ∀ c ∈ x, isWsChar c = false := by
  simp only [canonSeg, Bool.and_eq_true, List.all_eq_true] at h
  intro c hc
  have := h.1.1.2 c hc
  simp only [Bool.and_eq_true, Bool.not_eq_true'] at this
  exact this.2

theorem canonSeg_no_bs {x : Str} (h : canonSeg x = true) :
    ∀ c ∈ x, ¬ c = '\\' := by
  simp only [canonSeg, Bool.and_eq_true, List.all_eq_true] at h
  intro c hc
  have := h.1.1.2 c hc
  simp only [Bool.and_eq_true, Bool.not_eq_true', decide_eq_false_iff_not]
    at this
  exact this.1.2

theorem canonSeg_no_dot {x : Str} (h : canonSeg x = true) :
    x ≠ ['.'] ∧ x ≠ ['.', '.'] := by
  simp only [canonSeg, Bool.and_eq_true, Bool.not_eq_true',
    decide_eq_false_iff_not] at h
  exact ⟨h.1.2, h.2⟩

theorem splitSlash_no_slash {x : Str} (h : ∀ c ∈ x, ¬ c = '/') :
    splitSlash x = [x] := by
  induction x with
  | nil => rfl
  | cons c cs ih =>
    have hc : ¬ c = '/' := h c (List.mem_cons_self c cs)
    have ihs : splitSlash cs = [cs] :=
      ih (fun d hd => h d (List.mem_cons_of_mem c hd))
    simp [splitSlash, hc, ihs]

theorem splitSlash_append_slash (a b : Str) :
    splitSlash (a ++ '/' :: b) = splitSlash a ++ splitSlash b := by
  induction a with
  | nil => simp [splitSlash]
  | cons c cs ih =>
    by_cases hc : c = '/'
    · subst hc
      simp [splitSlash, ih]
    · simp only [List.cons_append, splitSlash, if_neg hc]
      rcases hs : splitSlash cs with _ | ⟨s, ss⟩
      · exact absurd hs (splitSlash_ne_nil cs)
      · simp only [List.append_eq]
        rw [ih, hs]
        simp

theorem segsOf_append_slash (a b : Str) :
    segsOf (a ++ '/' :: b) = segsOf a ++ segsOf b := by
  simp [segsOf, splitSlash_append_slash]

theorem segsOf_cons_slash (s : Str) : segsOf ('/' :: s) = segsOf s := by
  simp [segsOf, splitSlash]

theorem segsOf_single {x : Str} (hne : x ≠ [])
    (h : ∀ c ∈ x, ¬ c = '/') : segsOf x = [x] := by
  simp [segsOf, splitSlash_no_slash h, hne]

theorem segsOf_nil : segsOf [] = [] := by
  simp [segsOf, splitSlash]

theorem joinSegs_append {A B : List Str} (hA : A ≠ []) (hB : B ≠ []) :
    joinSegs (A ++ B) = joinSegs A ++ '/' :: joinSegs B := by
  induction A with
  | nil => exact absurd rfl hA
  | cons x xs ih =>
    cases xs with
    | nil =>
      cases B with
      | nil => exact absurd rfl hB
      | cons y ys => simp [joinSegs]
    | cons y ys =>
      have hmid := ih (by simp)
      have h1 : joinSegs (x :: y :: ys ++ B) =
          x ++ '/' :: joinSegs ((y :: ys) ++ B) := rfl
      have h2 : joinSegs (x :: y :: ys) = x ++ '/' :: joinSegs (y :: ys) :=
        rfl
      rw [h1, hmid, h2, List.append_assoc]
      simp

theorem segsOf_joinSegs {l : List Str} (h : ∀ x ∈ l, canonSeg x = true) :
    segsOf (joinSegs l) = l := by
  induction l with
  | nil => exact segsOf_nil
  | cons x xs ih =>
    cases xs with
    | nil =>
      have hx := h x (List.mem_cons_self x [])
      exact segsOf_single (canonSeg_ne_nil hx) (canonSeg_no_slash hx)
    | cons y ys =>
      have hx := h x (List.mem_cons_self x (y :: ys))
      have hrest : ∀ z ∈ y :: ys, canonSeg z = true :=
        fun z hz => h z (List.mem_cons_of_mem x hz)
      have : joinSegs (x :: y :: ys) = x ++ '/' :: joinSegs (y :: ys) :=
        rfl
      rw [this, segsOf_append_slash,
        segsOf_single (canonSeg_ne_nil hx) (canonSeg_no_slash hx), ih hrest]
      rfl

theorem resolveDots_generalized {l : List Str}
    (h : ∀ x ∈ l, x ≠ ['.'] ∧ x ≠ ['.', '.']) (acc : List Str) :
    l.foldl resolveStep acc = acc ++ l := by
  induction l generalizing acc with
  | nil => simp
  | cons x xs ih =>
    have hx := h x (List.mem_cons_self x xs)
    have hrest : ∀ z ∈ xs, z ≠ ['.'] ∧ z ≠ ['.', '.'] :=
      fun z hz => h z (List.mem_cons_of_mem x hz)
    simp only [List.foldl_cons, resolveStep, if_neg hx.1, if_neg hx.2]
    rw [ih hrest]
    simp

theorem resolveDots_canon {l : List Str}
    (h : ∀ x ∈ l, canonSeg x = true) : resolveDots l = l := by
  have := resolveDots_generalized
    (fun x hx => canonSeg_no_dot (h x hx)) ([] : List Str)
  simpa [resolveDots] using this

end Snippetor

namespace Snippetor

theorem mem_of_getLast {l : Str} {a : Char} (h : l.getLast? = some a) :
    a ∈ l := by
  rw [← List.head?_reverse] at h
  rcases hr : l.reverse with _ | ⟨x, xs⟩
  · rw [hr] at h
    simp at h
  · rw [hr] at h
    simp only [List.head?] at h
    injection h with h
    subst h
    have hx : x ∈ l.reverse := by
      rw [hr]
      exact List.mem_cons_self x xs
    simpa using hx

theorem getLast_append_ne {l₁ l₂ : Str} (h : l₂ ≠ []) :
    (l₁ ++ l₂).getLast? = l₂.getLast? := by
  rw [List.getLast?_append]
  cases hl : l₂.getLast? with
  | none => exact absurd (List.getLast?_eq_none_iff.mp hl) h
  | some a => rfl

theorem joinSegs_ne_nil {l : List Str} (hl : l ≠ [])
    (h : ∀ x ∈ l, canonSeg x = true) : joinSegs l ≠ [] := by
  cases l with
  | nil => exact absurd rfl hl
  | cons x xs =>
    cases xs with
    | nil =>
      exact canonSeg_ne_nil (h x (List.mem_cons_self x []))
    | cons y ys =>
      have hx := canonSeg_ne_nil (h x (List.mem_cons_self x (y :: ys)))
      cases hxc : x with
      | nil => exact absurd hxc hx
      | cons c cs => simp [joinSegs, hxc]

theorem joinSegs_getLast_ne_slash {l : List Str} (hl : l ≠ [])
    (h : ∀ x ∈ l, canonSeg x = true) {a : Char}
    (hlast : (joinSegs l).getLast? = some a) : ¬ a = '/' := by
  induction l with
  | nil => exact absurd rfl hl
  | cons x xs ih =>
    cases xs with
    | nil =>
      have hx := h x (List.mem_cons_self x [])
      exact canonSeg_no_slash hx a (mem_of_getLast hlast)
    | cons y ys =>
      have hrest : ∀ z ∈ y :: ys, canonSeg z = true :=
        fun z hz => h z (List.mem_cons_of_mem x hz)
      have hJ : joinSegs (y :: ys) ≠ [] := joinSegs_ne_nil (by simp) hrest
      have hstep : joinSegs (x :: y :: ys) = x ++ '/' :: joinSegs (y :: ys) :=
        rfl
      rw [hstep, getLast_append_ne (by simp)] at hlast
      rcases hc : (joinSegs (y :: ys)).getLast? with _ | b
      · exact absurd (List.getLast?_eq_none_iff.mp hc) hJ
      · have : ('/' :: joinSegs (y :: ys)).getLast? = some b := by
          rw [← @getLast_append_ne ['/'] _ hJ] at hc
          simpa using hc
        rw [this] at hlast
        injection hlast with hab
        subst hab
        exact ih (by simp) hrest hc

theorem joinSegs_head {x : Str} {xs : List Str} (hx : x ≠ []) :
    (joinSegs (x :: xs)).head? = x.head? := by
  cases xs with
  | nil => rfl
  | cons y ys =>
    have hstep : joinSegs (x :: y :: ys) = x ++ '/' :: joinSegs (y :: ys) :=
      rfl
    rw [hstep]
    cases x with
    | nil => exact absurd rfl hx
    | cons c cs => rfl

theorem dropWhile_all_false {p : Char → Bool} {s : Str}
    (h : ∀ c ∈ s, p c = false) : s.dropWhile p = s := by
  cases s with
  | nil => rfl
  | cons c cs =>
    have := h c (List.mem_cons_self c cs)
    simp [List.dropWhile_cons, this]

theorem jsTrim_no_ws {s : Str} (h : ∀ c ∈ s, isWsChar c = false) :
    jsTrim s = s := by
  unfold jsTrim
  rw [dropWhile_all_false h, dropWhile_all_false
    (fun c hc => h c (by simpa using hc)), List.reverse_reverse]

theorem mem_joinSegs {l : List Str} {c : Char} (h : c ∈ joinSegs l) :
    c = '/' ∨ ∃ x ∈ l, c ∈ x := by
  induction l with
  | nil => simp [joinSegs] at h
  | cons x xs ih =>
    cases xs with
    | nil =>
      right
      exact ⟨x, List.mem_cons_self x [], h⟩
    | cons y ys =>
      have hstep : joinSegs (x :: y :: ys) = x ++ '/' :: joinSegs (y :: ys) :=
        rfl
      rw [hstep] at h
      rcases List.mem_append.mp h with hx | hr
      · exact Or.inr ⟨x, List.mem_cons_self x (y :: ys), hx⟩
      · rcases List.mem_cons.mp hr with rfl | hj
        · exact Or.inl rfl
        · rcases ih hj with hsl | ⟨z, hz, hcz⟩
          · exact Or.inl hsl
          · exact Or.inr ⟨z, List.mem_cons_of_mem x hz, hcz⟩

/-- The outer-slash-stripping expression used by `toAbsolutePath`,
`isRootFolder` and `toRelativePathMock` is the identity on strings that
neither start nor end with a slash. -/
theorem stripOuter_eq_self {s : Str}
    (hh : ∀ c, s.head? = some c → ¬ c = '/')
    (hl : ∀ c, s.getLast? = some c → ¬ c = '/') :
    ((s.dropWhile (fun c => c = '/')).reverse.dropWhile
      (fun c => c = '/')).reverse = s := by
  have h1 : s.dropWhile (fun c => decide (c = '/')) = s := by
    cases s with
    | nil => rfl
    | cons c cs =>
      have := hh c rfl
      simp [List.dropWhile_cons, this]
  rw [h1]
  have h2 : s.reverse.dropWhile (fun c => decide (c = '/')) = s.reverse := by
    rcases hr : s.reverse with _ | ⟨c, cs⟩
    · rfl
    · have hcl : s.getLast? = some c := by
        rw [← List.head?_reverse, hr]
        rfl
      have := hl c hcl
      simp [List.dropWhile_cons, this]
  rw [h2, List.reverse_reverse]

end Snippetor

namespace Snippetor

/-- `normalizePath` fixes canonical absolute paths. -/
theorem normalizePath_canon {l : List Str} (hl : l ≠ [])
    (h : ∀ x ∈ l, canonSeg x = true) :
    normalizePath ('/' :: joinSegs l) = '/' :: joinSegs l := by
  unfold normalizePath
  rw [segsOf_cons_slash, segsOf_joinSegs h]
  have hres : resolveDots l = l := resolveDots_canon h
  rw [hres]
  have hne : joinSegs l ≠ [] := joinSegs_ne_nil hl h
  have hcons : ('/' :: joinSegs l) ≠ ['/'] := by
    intro heq
    exact hne (by injection heq)
  rw [if_neg hcons]
  unfold stripTrailingSlash
  have hlast : ('/' :: joinSegs l).getLast? = (joinSegs l).getLast? :=
    @getLast_append_ne ['/'] _ hne
  rcases hc : (joinSegs l).getLast? with _ | b
  · exact absurd (List.getLast?_eq_none_iff.mp hc) hne
  · have hb : ¬ b = '/' := joinSegs_getLast_ne_slash hl h hc
    rw [hlast, hc, if_neg (by simpa using fun hbs => hb hbs)]

theorem commonPrefixLen_self_append (A B : List Str) :
    commonPrefixLen A (A ++ B) = A.length := by
  induction A with
  | nil => cases B <;> rfl
  | cons x xs ih => simp [commonPrefixLen, ih]

/-- `relativePath` from a canonical absolute base to a path strictly
under it recovers the suffix. -/
theorem relativePath_under {A S : List Str} (hA : A ≠ []) (hS : S ≠ [])
    (hAc : ∀ x ∈ A, canonSeg x = true) (hSc : ∀ x ∈ S, canonSeg x = true) :
    relativePath ('/' :: joinSegs A) ('/' :: joinSegs A ++ '/' :: joinSegs S)
      = joinSegs S := by
  have hAS : ∀ x ∈ A ++ S, canonSeg x = true := by
    intro x hx
    rcases List.mem_append.mp hx with h | h
    · exact hAc x h
    · exact hSc x h
  have hjoin : ('/' :: joinSegs A ++ '/' :: joinSegs S : Str) =
      '/' :: joinSegs (A ++ S) := by
    rw [joinSegs_append hA hS]
    rfl
  rw [hjoin]
  unfold relativePath
  rw [normalizePath_canon hA hAc, normalizePath_canon (by simp [hA]) hAS]
  have hlen : ('/' :: joinSegs A : Str).length <
      ('/' :: joinSegs (A ++ S) : Str).length := by
    rw [joinSegs_append hA hS]
    simp
  rw [if_neg (by intro heq; rw [heq] at hlen; exact lt_irrefl _ hlen)]
  rw [segsOf_cons_slash, segsOf_cons_slash, segsOf_joinSegs hAc,
    segsOf_joinSegs hAS]
  simp only [commonPrefixLen_self_append, Nat.sub_self,
    List.replicate_zero, List.nil_append, List.drop_left]
  rw [if_neg (by simpa using hS)]

/-- `joinPaths` of a canonical absolute base and a canonical relative
suffix is their slash-joined concatenation. -/
theorem joinPaths_abs_rel {A S : List Str} (hA : A ≠ []) (hS : S ≠ [])
    (hAc : ∀ x ∈ A, canonSeg x = true) (hSc : ∀ x ∈ S, canonSeg x = true) :
    joinPaths ['/' :: joinSegs A, joinSegs S] =
      '/' :: joinSegs A ++ '/' :: joinSegs S := by
  have hAS : ∀ x ∈ A ++ S, canonSeg x = true := by
    intro x hx
    rcases List.mem_append.mp hx with h | h
    · exact hAc x h
    · exact hSc x h
  have hSne : joinSegs S ≠ [] := joinSegs_ne_nil hS hSc
  unfold joinPaths
  have hfil : (['/' :: joinSegs A, joinSegs S] : List Str).filter
      (fun p => p ≠ []) = ['/' :: joinSegs A, joinSegs S] := by
    simp [List.filter, hSne]
  rw [hfil]
  simp only [List.cons_ne_nil, if_false, reduceIte]
  have hjs : joinSegs ['/' :: joinSegs A, joinSegs S] =
      ('/' :: joinSegs A) ++ '/' :: joinSegs S := rfl
  rw [hjs]
  have hjoin : (('/' :: joinSegs A) ++ '/' :: joinSegs S : Str) =
      '/' :: joinSegs (A ++ S) := by
    rw [joinSegs_append hA hS]
    rfl
  rw [hjoin, normalizePath_canon (by simp [hA]) hAS, ← hjoin]

end Snippetor

namespace Snippetor

/-- Two physical root mappings overlap when they are equal or one lies in
the other's subtree. -/
def mapOverlap (a b : Str) : Bool :=
  a = b || strHasPre (a ++ ['/']) b || strHasPre (b ++ ['/']) a

theorem mapOverlap_symm (a b : Str) : mapOverlap a b = mapOverlap b a := by
  simp only [mapOverlap]
  by_cases hab : a = b
  · subst hab
    rfl
  · simp only [decide_eq_false hab, decide_eq_false (Ne.symm hab),
      Bool.false_or]
    exact Bool.or_comm _ _

/-- The root-scan condition of `toRelativePath`, as the source writes
it. -/
def rootMatches (normalized : Str) (g : SnippetMapping) : Bool :=
  strHasPre (normalizePath g.mapping ++ ['/']) normalized ||
    normalized = normalizePath g.mapping

theorem isAbsolutePath_false {s : Str}
    (h : ∀ c, s.head? = some c → ¬ c = '/') : isAbsolutePath s = false := by
  cases s with
  | nil => rfl
  | cons c cs =>
    have hc := h c rfl
    simp only [isAbsolutePath, strHasPre]
    rw [if_neg (fun hs => hc hs.symm)]

theorem backToFwd_eq_self {s : Str} (h : ∀ c ∈ s, ¬ c = '\\') :
    backToFwd s = s := by
  unfold backToFwd
  conv_rhs => rw [← List.map_id s]
  refine List.map_congr_left ?_
  intro c hc
  simp [h c hc]

theorem normalizeVirtualSpec_canon {l : List Str}
    (h : ∀ x ∈ l, canonSeg x = true) :
    normalizeVirtualSpec (joinSegs l) = joinSegs l := by
  unfold normalizeVirtualSpec
  rw [segsOf_joinSegs h, resolveDots_canon h]

/-- `toAbsolutePath` on a canonical virtual path whose first segment
names the configured root `f`. -/
theorem toAbsolutePath_canon (w : Wrapper) {name : Str} {segs : List Str}
    {f : SnippetMapping}
    (hc : ∀ x ∈ name :: segs, canonSeg x = true)
    (hfind : w.folders.find? (fun g => g.folder = name) = some f) :
    toAbsolutePath w (joinSegs (name :: segs)) =
      .ok (if joinSegs segs ≠ [] then joinPaths [f.mapping, joinSegs segs]
           else f.mapping) := by
  have hname := hc name (List.mem_cons_self name segs)
  have hnn : name ≠ [] := canonSeg_ne_nil hname
  have hpne : joinSegs (name :: segs) ≠ [] :=
    joinSegs_ne_nil (by simp) hc
  have hnows : ∀ c ∈ joinSegs (name :: segs), isWsChar c = false := by
    intro c hcm
    rcases mem_joinSegs hcm with rfl | ⟨x, hx, hcx⟩
    · rfl
    · exact canonSeg_no_ws (hc x hx) c hcx
  have htrim : jsTrim (joinSegs (name :: segs)) = joinSegs (name :: segs) :=
    jsTrim_no_ws hnows
  have hhead : ∀ c, (joinSegs (name :: segs)).head? = some c → ¬ c = '/' := by
    intro c hch
    rw [joinSegs_head hnn] at hch
    have : c ∈ name := by
      cases name with
      | nil => exact absurd rfl hnn
      | cons d ds =>
        simp only [List.head?] at hch
        injection hch with hdc
        rw [← hdc]
        exact List.mem_cons_self d ds
    exact canonSeg_no_slash hname c this
  have hlastns : ∀ c, (joinSegs (name :: segs)).getLast? = some c →
      ¬ c = '/' := fun c hcl =>
    joinSegs_getLast_ne_slash (by simp) hc hcl
  unfold toAbsolutePath
  rw [if_neg (by simp [htrim, hpne])]
  rw [isAbsolutePath_false hhead]
  simp only [Bool.false_eq_true, if_false, reduceIte]
  rw [stripOuter_eq_self hhead hlastns, segsOf_joinSegs hc]
  show (match w.folders.find? (fun g => g.folder = name) with
    | none =>
      (Except.error ("Folder not found in config: ".toList ++ name) :
        Except Str Str)
    | some f =>
      .ok (if joinSegs segs ≠ [] then joinPaths [f.mapping, joinSegs segs]
           else f.mapping)) = _
  rw [hfind]

/-- The root scan returns the translation through `f` when `f` is the
only configured root whose physical prefix matches. -/
theorem matchRoots_first (w : Wrapper) (normalized : Str)
    (fs : List SnippetMapping) (f : SnippetMapping) (hmem : f ∈ fs)
    (hmatch : rootMatches normalized f = true)
    (huniq : ∀ g ∈ fs, rootMatches normalized g = true → g = f) :
    matchRoots w normalized fs =
      (if relativePath (normalizePath f.mapping) normalized = [] ∨
          relativePath (normalizePath f.mapping) normalized = ['.'] then
        f.folder
      else backToFwd (f.folder ++ '/' ::
        relativePath (normalizePath f.mapping) normalized)) := by
  induction fs with
  | nil => cases hmem
  | cons g rest ih =>
    by_cases hg : rootMatches normalized g = true
    · have hgf : g = f := huniq g (List.mem_cons_self g rest) hg
      subst hgf
      simp only [matchRoots]
      rw [if_pos (by simpa [rootMatches] using hg)]
    · simp only [matchRoots]
      rw [if_neg (by simpa [rootMatches] using hg)]
      have hfr : f ∈ rest := by
        rcases List.mem_cons.mp hmem with rfl | hr
        · exact absurd hmatch hg
        · exact hr
      exact ih hfr
        (fun g' hg' hmg' => huniq g' (List.mem_cons_of_mem g hg') hmg')

/-- A root whose slash-terminated physical prefix covers a path strictly
inside another root's subtree must overlap that root. -/
theorem overlap_of_both_pre {G M t : Str}
    (hg : strHasPre (G ++ ['/']) (M ++ '/' :: t) = true) :
    G = M ∨ strHasPre (G ++ ['/']) M = true ∨
      strHasPre (M ++ ['/']) G = true := by
  have hm : strHasPre (M ++ ['/']) (M ++ '/' :: t) = true := by
    have : (M ++ ['/']) ++ t = M ++ '/' :: t := by simp
    rw [← this]
    exact strHasPre_self_append _ _
  rcases pre_comparable hg hm with hcase | hcase
  · rcases pre_snoc hcase with hp | he
    · exact Or.inr (Or.inl hp)
    · left
      have := congrArg List.dropLast he
      simpa [List.dropLast_concat] using this
  · rcases pre_snoc hcase with hp | he
    · exact Or.inr (Or.inr hp)
    · left
      have := congrArg List.dropLast he
      simpa [List.dropLast_concat] using this.symm

end Snippetor

namespace Snippetor

/-- A mapping entry is canonically configured when its physical path is a
canonical absolute path. -/
def canonMapping (g : SnippetMapping) : Prop :=
  segsOf g.mapping ≠ [] ∧ (∀ x ∈ segsOf g.mapping, canonSeg x = true) ∧
    g.mapping = '/' :: joinSegs (segsOf g.mapping)

instance (g : SnippetMapping) : Decidable (canonMapping g) := by
  unfold canonMapping
  infer_instance

theorem normalizePath_of_canonMapping {g : SnippetMapping}
    (h : canonMapping g) : normalizePath g.mapping = g.mapping := by
  obtain ⟨h1, h2, h3⟩ := h
  rw [h3]
  exact normalizePath_canon h1 h2

/-- Any configured root whose prefix matches a path inside `f`'s subtree
overlaps `f`'s mapping. -/
theorem match_forces_overlap {g f : SnippetMapping} {t : Str}
    (hgc : canonMapping g)
    (hrm : rootMatches (f.mapping ++ '/' :: t) g = true) :
    mapOverlap g.mapping f.mapping = true := by
  rw [rootMatches, normalizePath_of_canonMapping hgc] at hrm
  rcases Bool.or_eq_true_iff.mp hrm with hp | he
  · rcases overlap_of_both_pre hp with heq | hp2 | hp3
    · simp [mapOverlap, heq]
    · simp [mapOverlap, hp2]
    · simp [mapOverlap, hp3]
  · have habs : f.mapping ++ '/' :: t = g.mapping := of_decide_eq_true he
    have : strHasPre (f.mapping ++ ['/']) g.mapping = true := by
      rw [← habs]
      have harr : (f.mapping ++ ['/']) ++ t = f.mapping ++ '/' :: t := by
        simp
      rw [← harr]
      exact strHasPre_self_append _ _
    simp [mapOverlap, this]

/-- An equality match against a root inside `f`'s subtree also overlaps,
and an equality match against `f.mapping` itself is `f`-compatible. -/
theorem match_eq_forces_overlap {g f : SnippetMapping}
    (hgc : canonMapping g)
    (hrm : rootMatches f.mapping g = true) :
    mapOverlap g.mapping f.mapping = true := by
  rw [rootMatches, normalizePath_of_canonMapping hgc] at hrm
  rcases Bool.or_eq_true_iff.mp hrm with hp | he
  · simp [mapOverlap, hp]
  · have : f.mapping = g.mapping := of_decide_eq_true he
    simp [mapOverlap, this]

/-- C1 (amended): for every configured root set whose physical mappings
are canonical absolute paths, pairwise neither equal to nor lying inside
one another, with canonical root names, and for every canonical virtual
path whose first segment names the configured root `f`, the physical
round trip returns the normalization of the virtual path (which, being
canonical, is the path itself). -/
theorem claim1_roundtrip_amended (w : Wrapper) (name : Str)
    (segs : List Str) (f : SnippetMapping)
    (hc : ∀ x ∈ name :: segs, canonSeg x = true)
    (hmaps : ∀ g ∈ w.folders, canonMapping g)
    (hnames : ∀ g ∈ w.folders, canonSeg g.folder = true)
    (hsep : w.folders.Pairwise (fun g₁ g₂ =>
      mapOverlap g₁.mapping g₂.mapping = false))
    (hfind : w.folders.find? (fun g => g.folder = name) = some f) :
    Except.map (toRelativePathDisk w)
      (toAbsolutePath w (joinSegs (name :: segs))) =
      Except.ok (normalizeVirtualSpec (joinSegs (name :: segs))) := by
  have hsymm : Symmetric (fun g₁ g₂ : SnippetMapping =>
      mapOverlap g₁.mapping g₂.mapping = false) := by
    intro g₁ g₂ h
    rw [mapOverlap_symm]
    exact h
  have hfmem : f ∈ w.folders := List.mem_of_find?_eq_some hfind
  have hffold : f.folder = name := by
    have := List.find?_some hfind
    simpa using this
  have hfc : canonMapping f := hmaps f hfmem
  obtain ⟨hMne, hMc, hMeq⟩ := hfc
  have huniq : ∀ (t : Str), ∀ g ∈ w.folders,
      rootMatches (f.mapping ++ '/' :: t) g = true → g = f := by
    intro t g hg hrm
    by_cases hgf : g = f
    · exact hgf
    · have hno := List.Pairwise.forall hsymm hsep hg hfmem hgf
      exact absurd (match_forces_overlap (hmaps g hg) hrm)
        (by rw [hno]; simp)
  have huniqEq : ∀ g ∈ w.folders, rootMatches f.mapping g = true →
      g = f := by
    intro g hg hrm
    by_cases hgf : g = f
    · exact hgf
    · have hno := List.Pairwise.forall hsymm hsep hg hfmem hgf
      exact absurd (match_eq_forces_overlap (hmaps g hg) hrm)
        (by rw [hno]; simp)
  rw [toAbsolutePath_canon w hc hfind]
  rw [normalizeVirtualSpec_canon hc]
  cases segs with
  | nil =>
    have hjs : (joinSegs [] : Str) = [] := rfl
    rw [hjs]
    simp only [ne_eq, not_true_eq_false, if_false, reduceIte]
    show Except.ok (toRelativePathDisk w f.mapping) =
      Except.ok (joinSegs [name])
    unfold toRelativePathDisk
    rw [normalizePath_of_canonMapping ⟨hMne, hMc, hMeq⟩]
    have hmatch : rootMatches f.mapping f = true := by
      rw [rootMatches, normalizePath_of_canonMapping ⟨hMne, hMc, hMeq⟩]
      simp
    rw [matchRoots_first w f.mapping w.folders f hfmem hmatch huniqEq]
    rw [normalizePath_of_canonMapping ⟨hMne, hMc, hMeq⟩]
    have hrel : relativePath f.mapping f.mapping = ['.'] := by
      unfold relativePath
      simp
    rw [hrel]
    simp [hffold, joinSegs]
  | cons y ys =>
    have hSc : ∀ x ∈ y :: ys, canonSeg x = true :=
      fun x hx => hc x (List.mem_cons_of_mem name hx)
    have hSne : joinSegs (y :: ys) ≠ [] :=
      joinSegs_ne_nil (by simp) hSc
    rw [if_pos hSne]
    have hjp : joinPaths [f.mapping, joinSegs (y :: ys)] =
        f.mapping ++ '/' :: joinSegs (y :: ys) := by
      conv_lhs => rw [hMeq]
      rw [joinPaths_abs_rel hMne (by simp) hMc hSc, ← hMeq]
    rw [hjp]
    show Except.ok
        (toRelativePathDisk w (f.mapping ++ '/' :: joinSegs (y :: ys))) =
      Except.ok (joinSegs (name :: y :: ys))
    unfold toRelativePathDisk
    have hMS : ∀ x ∈ segsOf f.mapping ++ y :: ys, canonSeg x = true := by
      intro x hx
      rcases List.mem_append.mp hx with h | h
      · exact hMc x h
      · exact hSc x h
    have habseq : f.mapping ++ '/' :: joinSegs (y :: ys) =
        '/' :: joinSegs (segsOf f.mapping ++ y :: ys) := by
      conv_lhs => rw [hMeq]
      rw [joinSegs_append (B := y :: ys) hMne (by simp)]
      rfl
    have habsc : normalizePath (f.mapping ++ '/' :: joinSegs (y :: ys)) =
        f.mapping ++ '/' :: joinSegs (y :: ys) := by
      rw [habseq]
      exact normalizePath_canon (by simp) hMS
    rw [habsc]
    have hmatch : rootMatches (f.mapping ++ '/' :: joinSegs (y :: ys)) f =
        true := by
      rw [rootMatches, normalizePath_of_canonMapping ⟨hMne, hMc, hMeq⟩]
      have harr : (f.mapping ++ ['/']) ++ joinSegs (y :: ys) =
          f.mapping ++ '/' :: joinSegs (y :: ys) := by simp
      have hsp := strHasPre_self_append (f.mapping ++ ['/'])
        (joinSegs (y :: ys))
      rw [harr] at hsp
      simp [hsp]
    rw [matchRoots_first w _ w.folders f hfmem hmatch
      (huniq (joinSegs (y :: ys)))]
    rw [normalizePath_of_canonMapping ⟨hMne, hMc, hMeq⟩]
    have hrel : relativePath f.mapping
        (f.mapping ++ '/' :: joinSegs (y :: ys)) = joinSegs (y :: ys) := by
      rw [hMeq]
      exact relativePath_under hMne (by simp) hMc hSc
    rw [hrel]
    have hnotdot : ¬ (joinSegs (y :: ys) = [] ∨
        joinSegs (y :: ys) = ['.']) := by
      rintro (h | h)
      · exact hSne h
      · have hseq := segsOf_joinSegs hSc
        rw [h] at hseq
        have hdot : segsOf ['.'] = [['.']] := rfl
        rw [hdot] at hseq
        injection hseq with h1 h2
        have hy := hSc y (List.mem_cons_self y ys)
        rw [← h1] at hy
        exact absurd hy (by decide)
    rw [if_neg hnotdot]
    have hbs : ∀ c ∈ f.folder ++ '/' :: joinSegs (y :: ys), ¬ c = '\\' := by
      intro c hcm
      rcases List.mem_append.mp hcm with h | h
      · exact canonSeg_no_bs (hnames f hfmem) c h
      · rcases List.mem_cons.mp h with rfl | h2
        · decide
        · rcases mem_joinSegs h2 with rfl | ⟨x, hx, hcx⟩
          · decide
          · exact canonSeg_no_bs (hSc x hx) c hcx
    rw [backToFwd_eq_self hbs, hffold]
    rfl

/-- The default mock configuration of the repository's test activation
(`SnippetorTest.ts`): roots `Drafts` and `LocalSpace` under `/mock/root`,
populated with a small sample tree. -/
def sampleWrapper : Wrapper :=
  { rootPath := "/mock/root".toList
  , folders := [⟨"Drafts".toList, "/mock/root/Drafts".toList⟩,
                ⟨"LocalSpace".toList, "/mock/root/LocalSpace".toList⟩]
  , fileCache :=
      [("/mock/root".toList, ⟨[], true⟩),
       ("/mock/root/config.json".toList, ⟨"[]".toList, false⟩),
       ("/mock/root/Drafts".toList, ⟨[], true⟩),
       ("/mock/root/LocalSpace".toList, ⟨[], true⟩),
       ("/mock/root/Drafts/a.snippet".toList, ⟨"a".toList, false⟩),
       ("/mock/root/Drafts/sub".toList, ⟨[], true⟩),
       ("/mock/root/Drafts/sub/x.snippet".toList, ⟨"x".toList, false⟩),
       ("/mock/root/LocalSpace/inner".toList, ⟨[], true⟩)] }

/-- A configuration whose second root's physical folder lies inside the
first root's physical folder. -/
def overlappingWrapper : Wrapper :=
  { rootPath := "/mock/root".toList
  , folders := [⟨"A".toList, "/mock/root/x".toList⟩,
                ⟨"B".toList, "/mock/root/x/y".toList⟩]
  , fileCache := [] }

/-- C1, counterexample: with root set `A -> /mock/root/x`,
`B -> /mock/root/x/y` (both well-formed entries) and the well-formed
virtual path `B/f`, the round trip returns `A/y/f` while the
normalization of `B/f` is `B/f` itself, so the claimed identity fails
for this configured root set. -/
theorem claim1_roundtrip_counterexample :
    Except.map (toRelativePathDisk overlappingWrapper)
      (toAbsolutePath overlappingWrapper ("B/f".toList)) =
      Except.ok ("A/y/f".toList) ∧
    normalizeVirtualSpec ("B/f".toList) = "B/f".toList ∧
    ¬ ("A/y/f".toList : Str) = "B/f".toList :=
  ⟨rfl, rfl, by decide⟩

/-- C1, witness: the amended round-trip theorem applied to the default
root set and the virtual path `Drafts/sub/x.snippet`. -/
theorem claim1_roundtrip_witness :
    Except.map (toRelativePathDisk sampleWrapper)
      (toAbsolutePath sampleWrapper
        (joinSegs ["Drafts".toList, "sub".toList, "x.snippet".toList])) =
      Except.ok (normalizeVirtualSpec
        (joinSegs ["Drafts".toList, "sub".toList, "x.snippet".toList])) :=
  claim1_roundtrip_amended sampleWrapper ("Drafts".toList)
    ["sub".toList, "x.snippet".toList]
    ⟨"Drafts".toList, "/mock/root/Drafts".toList⟩
    (by decide) (by decide) (by decide) (by decide) (by decide)

/-- C6: when a directory above the active document is renamed, the
tracker re-bases the active path onto the new prefix keeping the suffix,
emits exactly one session update notification, and neither closes the
document nor warns. -/
theorem claim6_rename_rebases_active (A B S : List Str)
    (hA : A ≠ []) (hB : B ≠ []) (hS : S ≠ [])
    (hAc : ∀ x ∈ A, canonSeg x = true) (hBc : ∀ x ∈ B, canonSeg x = true)
    (hSc : ∀ x ∈ S, canonSeg x = true) :
    onNodeRenamed ⟨('/' :: joinSegs A) ++ '/' :: joinSegs S⟩
        ('/' :: joinSegs A) ('/' :: joinSegs B) true =
      (⟨('/' :: joinSegs B) ++ '/' :: joinSegs S⟩,
        [TrackerAction.update ("moved (folder renamed)".toList)
          (('/' :: joinSegs B) ++ '/' :: joinSegs S)]) := by
  have hpre : strHasPre (('/' :: joinSegs A) ++ ['/'])
      (('/' :: joinSegs A) ++ '/' :: joinSegs S) = true := by
    have harr : (('/' :: joinSegs A) ++ ['/']) ++ joinSegs S =
        ('/' :: joinSegs A) ++ '/' :: joinSegs S := by simp
    have hsp := strHasPre_self_append (('/' :: joinSegs A) ++ ['/'])
      (joinSegs S)
    rwa [harr] at hsp
  unfold onNodeRenamed
  rw [if_pos rfl, if_pos ⟨by simp, hpre⟩]
  unfold movePathRelativeTo
  rw [relativePath_under hA hS hAc hSc, joinPaths_abs_rel hB hS hBc hSc]

/-- C6, witness: the spec scenario - active document
`/mock/root/Drafts/a/note.snippet`, rename of `/mock/root/Drafts/a` to
`/mock/root/Drafts/b`. -/
theorem claim6_rename_rebases_active_witness :
    onNodeRenamed ⟨"/mock/root/Drafts/a/note.snippet".toList⟩
        ("/mock/root/Drafts/a".toList) ("/mock/root/Drafts/b".toList)
        true =
      (⟨"/mock/root/Drafts/b/note.snippet".toList⟩,
        [TrackerAction.update ("moved (folder renamed)".toList)
          ("/mock/root/Drafts/b/note.snippet".toList)]) := by
  have h := claim6_rename_rebases_active
    ["mock".toList, "root".toList, "Drafts".toList, "a".toList]
    ["mock".toList, "root".toList, "Drafts".toList, "b".toList]
    ["note.snippet".toList]
    (by decide) (by decide) (by decide) (by decide) (by decide) (by decide)
  exact h

/-- C7, counterexample: a directory-removal event whose removed path
equals the active document path leaves the tracker unchanged and fires
nothing - the code's folder branch only tests strict nesting, while the
claim requires a transition to Empty with a close signal whenever the
active path equals the removed node. -/
theorem claim7_removed_counterexample :
    onNodeRemoved ⟨"/mock/root/Drafts/a".toList⟩
        ("/mock/root/Drafts/a".toList) true =
      (⟨"/mock/root/Drafts/a".toList⟩, []) := rfl

end Snippetor

namespace Snippetor

/-- C7 (amended): a removal event retires the active document and fires
the warn-and-close pair exactly once when either the removed node is a
file equal to the active path, or the removed node is a directory and
the active path lies strictly inside its subtree; a directory-removal
whose path merely equals the active path is ignored (see the
counterexample). -/
theorem claim7_removed_amended (N A S : List Str)
    (hN : N ≠ []) (hA : A ≠ []) (hS : S ≠ [])
    (hNc : ∀ x ∈ N, canonSeg x = true) (hAc : ∀ x ∈ A, canonSeg x = true)
    (hSc : ∀ x ∈ S, canonSeg x = true) :
    (∃ m, onNodeRemoved ⟨'/' :: joinSegs N⟩ ('/' :: joinSegs N) false =
      (⟨[]⟩, [TrackerAction.warned m, TrackerAction.closed])) ∧
    (∃ m, onNodeRemoved ⟨('/' :: joinSegs A) ++ '/' :: joinSegs S⟩
        ('/' :: joinSegs A) true =
      (⟨[]⟩, [TrackerAction.warned m, TrackerAction.closed])) := by
  constructor
  · refine ⟨"Snippet file was removed: ".toList ++
      basenameFromPath ('/' :: joinSegs N), ?_⟩
    unfold onNodeRemoved
    rw [if_neg (by simp)]
    rw [normalizePath_canon hN hNc]
    rw [if_neg (by simp), if_pos rfl]
  · refine ⟨"Snippet file \"".toList ++
      basenameFromPath (('/' :: joinSegs A) ++ '/' :: joinSegs S) ++
      "\" is no longer accessible: parent folder \"".toList ++
      basenameFromPath ('/' :: joinSegs A) ++
      "\" was removed.".toList, ?_⟩
    have hAS : ∀ x ∈ A ++ S, canonSeg x = true := by
      intro x hx
      rcases List.mem_append.mp hx with h | h
      · exact hAc x h
      · exact hSc x h
    have habseq : ('/' :: joinSegs A) ++ '/' :: joinSegs S =
        '/' :: joinSegs (A ++ S) := by
      rw [joinSegs_append hA hS]
      rfl
    have hactc : normalizePath (('/' :: joinSegs A) ++ '/' :: joinSegs S) =
        ('/' :: joinSegs A) ++ '/' :: joinSegs S := by
      rw [habseq]
      exact normalizePath_canon (by simp [hA]) hAS
    have hpre : strHasPre (('/' :: joinSegs A) ++ ['/'])
        (('/' :: joinSegs A) ++ '/' :: joinSegs S) = true := by
      have harr : (('/' :: joinSegs A) ++ ['/']) ++ joinSegs S =
          ('/' :: joinSegs A) ++ '/' :: joinSegs S := by simp
      have hsp := strHasPre_self_append (('/' :: joinSegs A) ++ ['/'])
        (joinSegs S)
      rwa [harr] at hsp
    unfold onNodeRemoved
    rw [if_neg (by simp)]
    rw [normalizePath_canon hA hAc, hactc]
    rw [if_pos rfl, if_pos hpre]

/-- C7, witness: the amended removal theorem at the concrete segment
lists of `/mock/root/Drafts/n.snippet` (file case) and of
`/mock/root/Drafts/a` containing `n.snippet` (directory case). -/
theorem claim7_removed_amended_witness :
    (∃ m, onNodeRemoved
        ⟨'/' :: joinSegs ["mock".toList, "root".toList, "Drafts".toList,
          "n.snippet".toList]⟩
        ('/' :: joinSegs ["mock".toList, "root".toList, "Drafts".toList,
          "n.snippet".toList]) false =
      (⟨[]⟩, [TrackerAction.warned m, TrackerAction.closed])) ∧
    (∃ m, onNodeRemoved
        ⟨('/' :: joinSegs ["mock".toList, "root".toList, "Drafts".toList,
          "a".toList]) ++ '/' :: joinSegs ["n.snippet".toList]⟩
        ('/' :: joinSegs ["mock".toList, "root".toList, "Drafts".toList,
          "a".toList]) true =
      (⟨[]⟩, [TrackerAction.warned m, TrackerAction.closed])) :=
  claim7_removed_amended
    ["mock".toList, "root".toList, "Drafts".toList, "n.snippet".toList]
    ["mock".toList, "root".toList, "Drafts".toList, "a".toList]
    ["n.snippet".toList]
    (by decide) (by decide) (by decide) (by decide) (by decide) (by decide)

end Snippetor

namespace Snippetor

theorem cacheHas_of_get {c : Cache} {k : Str} {e : FileEntry}
    (h : cacheGet c k = some e) : cacheHas c k = true := by
  unfold cacheGet at h
  unfold cacheHas
  rcases hf : c.find? (fun e => e.1 = k) with _ | x
  · rw [hf] at h
    simp at h
  · rw [List.any_eq_true]
    have hp := List.find?_some hf
    exact ⟨x, List.mem_of_find?_eq_some hf, hp⟩

theorem get_of_cacheHas {c : Cache} {k : Str} (h : cacheHas c k = true) :
    ∃ e, cacheGet c k = some e := by
  unfold cacheHas at h
  rw [List.any_eq_true] at h
  obtain ⟨x, hx, hpx⟩ := h
  rcases hf : c.find? (fun e => e.1 = k) with _ | y
  · rw [List.find?_eq_none] at hf
    exact absurd hpx (by simpa using hf x hx)
  · exact ⟨y.2, by simp [cacheGet, hf]⟩

theorem statIsDir_of_existsW {w : Wrapper} {rel : Str}
    (h : existsW w rel = true) : ∃ b, statIsDir w rel = .ok b := by
  unfold existsW at h
  rcases ha : toAbsolutePath w rel with e | a
  · rw [ha] at h
    simp at h
  · rw [ha] at h
    obtain ⟨ent, hent⟩ := get_of_cacheHas h
    exact ⟨ent.isDirectory, by simp [statIsDir, ha, hent]⟩

theorem basenameW_toAbs {w : Wrapper} {src bn : Str}
    (h : basenameW w src = .ok bn) :
    ∃ a, toAbsolutePath w src = .ok a ∧ bn = basenameFromPath a := by
  unfold basenameW at h
  rcases ha : toAbsolutePath w src with e | a
  · rw [ha] at h
    simp at h
  · rw [ha] at h
    injection h with h
    exact ⟨a, rfl, h.symm⟩

theorem dirnameW_of_toAbs {w : Wrapper} {src a : Str}
    (ha : toAbsolutePath w src = .ok a) :
    dirnameW w src = .ok (toRelativePathMock w (dirnameFromPath a)) := by
  simp [dirnameW, ha]

theorem check1_total (w : Wrapper) (src tgt bn : Str) (isF : Bool)
    {a : Str} (ha : toAbsolutePath w src = .ok a) :
    ∃ o, checkSourceAndDestinationPaths w src tgt bn isF = .ok o := by
  unfold checkSourceAndDestinationPaths
  by_cases h1 : isRootFolder w src = true
  · exact ⟨_, by rw [if_pos h1]⟩
  · rw [if_neg h1]
    by_cases h2 : isRootFolder w tgt = true
    · exact ⟨_, by rw [if_pos h2]⟩
    · rw [if_neg h2]
      cases isF with
      | true => exact ⟨none, by simp⟩
      | false =>
        rw [dirnameW_of_toAbs ha]
        by_cases h3 : isRootFolder w
            (toRelativePathMock w (dirnameFromPath a)) = true
        · exact ⟨some ("Failed to drop file to the root folder.".toList),
            by simp [h3]⟩
        · exact ⟨none, by simp [h3]⟩

theorem check2_total (w : Wrapper) (src dest : Str) (isF : Bool)
    {a : Str} (ha : toAbsolutePath w src = .ok a) :
    ∃ o, checkSourceDestinationNotEqual w src dest isF = .ok o := by
  unfold checkSourceDestinationNotEqual
  cases isF with
  | true =>
    by_cases h : src = dest ∨ strHasPre (src ++ ['/']) dest = true
    · exact ⟨_, by rw [if_pos rfl, if_pos h]⟩
    · exact ⟨none, by rw [if_pos rfl, if_neg h]⟩
  | false =>
    rw [if_neg (by simp)]
    rw [dirnameW_of_toAbs ha]
    by_cases h : toRelativePathMock w (dirnameFromPath a) = dest
    · exact ⟨some ("There is no file sort operation support.".toList),
        by simp [h]⟩
    · exact ⟨none, by simp [h]⟩

theorem check3_total (w : Wrapper) (tgt : Str) :
    ∃ o, checkDestinationExistsAndIsDir w tgt = .ok o := by
  unfold checkDestinationExistsAndIsDir
  by_cases h : existsW w tgt = true
  · obtain ⟨b, hb⟩ := statIsDir_of_existsW h
    rw [if_neg (by simp [h]), hb]
    cases b with
    | true => exact ⟨none, by simp⟩
    | false =>
      exact ⟨some ("Destination is not a directory.".toList), by simp⟩
  · exact ⟨_, by rw [if_pos (by simp [Bool.eq_false_iff.mpr h])]⟩

theorem checkFolderMoveOverwrite_mismatch {w : Wrapper} {dest bn : Str}
    {ow : Bool} (hex : existsW w dest = true)
    (hstat : statIsDir w dest = .ok false) :
    checkFolderMoveOverwrite w dest bn ow =
      .ok (some ("Cannot overwrite file \"".toList ++ bn ++
        "\" with folder.".toList)) := by
  unfold checkFolderMoveOverwrite
  rw [if_neg (by simp [hex]), hstat]
  simp

theorem checkFileMoveOverwrite_mismatch {w : Wrapper} {dest bn : Str}
    {ow : Bool} (hex : existsW w dest = true)
    (hstat : statIsDir w dest = .ok true) :
    checkFileMoveOverwrite w dest bn ow =
      .ok (some ("Cannot overwrite folder \"".toList ++ bn ++
        "\" with file.".toList)) := by
  unfold checkFileMoveOverwrite
  rw [if_neg (by simp [hex]), hstat]
  simp

theorem copyOccupiedStep_mismatch {w : Wrapper} {dest : Str}
    {isF ow b : Bool} (hex : existsW w dest = true)
    (hstat : statIsDir w dest = .ok b) (hne : ¬ b = isF) :
    copyOccupiedStep w dest isF ow =
      .error (.replied false ("Cannot overwrite ".toList ++ typeName b ++
        " with ".toList ++ typeName isF ++ ".".toList)) := by
  unfold copyOccupiedStep
  rw [if_pos hex, hstat]
  simp [hne]

end Snippetor

namespace Snippetor

theorem isRootFolder_toAbs {w : Wrapper} {rel : Str}
    (h : isRootFolder w rel = true) :
    ∃ a, toAbsolutePath w rel = .ok a := by
  unfold isRootFolder at h
  by_cases hempty : rel = [] ∨ jsTrim rel = []
  · rw [if_pos hempty] at h
    exact absurd h (by simp)
  · rw [if_neg hempty] at h
    unfold toAbsolutePath
    rw [if_neg hempty]
    by_cases habs : isAbsolutePath rel = true
    · rw [if_pos habs]
      exact ⟨_, rfl⟩
    · rw [if_neg habs]
      rcases hsegs : segsOf
          ((rel.dropWhile (fun c => c = '/')).reverse.dropWhile
            (fun c => c = '/')).reverse with _ | ⟨p, rest⟩
      · simp only [hsegs] at h
        exact absurd h (by simp)
      · simp only [hsegs] at h
        cases rest with
        | cons q qs => simp at h
        | nil =>
          simp only [List.any_eq_true] at h
          obtain ⟨g, hg, hgp⟩ := h
          rcases hfind : w.folders.find? (fun f => f.folder = p)
              with _ | f
          · rw [List.find?_eq_none] at hfind
            exact absurd hgp (by simpa using hfind g hg)
          · simp only [hsegs, hfind]
            exact ⟨_, rfl⟩

/-- C2 (amended): for every store state and request whose source is a
root-level folder, the Move and Copy handlers reject with an error
reply, leave the store unchanged and emit no event; the Remove handler
has no such guard (see the counterexample). -/
theorem claim2_root_source_rejected (w : Wrapper) (src tgt : Str)
    (isF ow : Bool) (hroot : isRootFolder w src = true) :
    (∃ m, moveExecute w src tgt isF ow =
      ⟨w, [], .replied false m⟩) ∧
    (∃ m, copyExecute w src tgt isF ow =
      ⟨w, [], .replied false m⟩) := by
  obtain ⟨a, ha⟩ := isRootFolder_toAbs hroot
  have hb : basenameW w src = .ok (basenameFromPath a) := by
    simp [basenameW, ha]
  have hcheck : ∀ bn, checkSourceAndDestinationPaths w src tgt bn isF =
      .ok (some ("Cannot move top-level folder: ".toList ++ bn)) := by
    intro bn
    unfold checkSourceAndDestinationPaths
    rw [if_pos hroot]
  constructor
  · exact ⟨"Cannot move top-level folder: ".toList ++ basenameFromPath a,
      by simp [moveExecute, hb, hcheck]⟩
  · exact ⟨"Cannot copy top-level folder: ".toList ++ basenameFromPath a,
      by simp [copyExecute, hb, hroot]⟩

/-- C2, counterexample: the Remove handler applies no root-boundary
guard - a confirmed remove of the root folder `Drafts` deletes the
root's whole subtree from the store, emits a Removed event and reports
success instead of rejecting. -/
theorem claim2_remove_root_counterexample :
    isRootFolder sampleWrapper ("Drafts".toList) = true ∧
    (removeExecute sampleWrapper ("Drafts".toList) true true).reply =
      .replied true [] ∧
    (removeExecute sampleWrapper ("Drafts".toList) true true).events =
      [MutEvent.removed ("/mock/root/Drafts".toList) true] ∧
    cacheHas (removeExecute sampleWrapper ("Drafts".toList) true
      true).state.fileCache ("/mock/root/Drafts".toList) = false :=
  ⟨rfl, rfl, rfl, rfl⟩

/-- C2, witness: the amended root-source rejection at the default store
with source `Drafts` and target `LocalSpace`. -/
theorem claim2_root_source_rejected_witness :
    (∃ m, moveExecute sampleWrapper ("Drafts".toList)
      ("LocalSpace".toList) true false =
      ⟨sampleWrapper, [], .replied false m⟩) ∧
    (∃ m, copyExecute sampleWrapper ("Drafts".toList)
      ("LocalSpace".toList) true false =
      ⟨sampleWrapper, [], .replied false m⟩) :=
  claim2_root_source_rejected sampleWrapper ("Drafts".toList)
    ("LocalSpace".toList) true false (by decide)

/-- C3: a Move or Copy of a directory whose computed destination path
equals the source or lies strictly inside the source's subtree is
rejected with an error reply - no store mutation, no event - for both
values of the overwrite flag. -/
theorem claim3_containment_rejected (w : Wrapper) (src tgt bn : Str)
    (ow : Bool) (hbn : basenameW w src = .ok bn)
    (hcontain : src = joinW w [tgt, bn] ∨
      strHasPre (src ++ ['/']) (joinW w [tgt, bn]) = true) :
    (∃ m, moveExecute w src tgt true ow = ⟨w, [], .replied false m⟩) ∧
    (∃ m, copyExecute w src tgt true ow = ⟨w, [], .replied false m⟩) := by
  have hch2 : checkSourceDestinationNotEqual w src (joinW w [tgt, bn])
      true = .ok (some ("Failed to move folder.".toList)) := by
    unfold checkSourceDestinationNotEqual
    rw [if_pos rfl, if_pos hcontain]
  constructor
  · by_cases h1 : isRootFolder w src = true
    · exact (claim2_root_source_rejected w src tgt true ow h1).1
    · by_cases h2 : isRootFolder w tgt = true
      · exact ⟨"Failed to drop to the root folder.".toList,
          by simp [moveExecute, hbn, checkSourceAndDestinationPaths,
            h1, h2]⟩
      · exact ⟨"Failed to move folder.".toList,
          by simp [moveExecute, hbn, checkSourceAndDestinationPaths,
            h1, h2, hch2]⟩
  · by_cases h1 : isRootFolder w src = true
    · exact (claim2_root_source_rejected w src tgt true ow h1).2
    · exact ⟨"Failed to copy folder.".toList,
        by simp [copyExecute, hbn, h1, hcontain]⟩

/-- C3, witness: dropping the folder `Drafts/sub` onto itself computes
destination `Drafts/sub/sub`, strictly inside the source subtree, and
both handlers reject it. -/
theorem claim3_containment_rejected_witness :
    (∃ m, moveExecute sampleWrapper ("Drafts/sub".toList)
      ("Drafts/sub".toList) true false =
      ⟨sampleWrapper, [], .replied false m⟩) ∧
    (∃ m, copyExecute sampleWrapper ("Drafts/sub".toList)
      ("Drafts/sub".toList) true false =
      ⟨sampleWrapper, [], .replied false m⟩) :=
  claim3_containment_rejected sampleWrapper ("Drafts/sub".toList)
    ("Drafts/sub".toList) ("sub".toList) false rfl
    (Or.inr (by decide))

end Snippetor

namespace Snippetor

/-- C4: when an entry already occupies the computed destination path and
its kind (file vs directory) differs from the request's kind, Move and
Copy reject with an error reply - no store mutation, no event -
regardless of the overwrite flag. -/
theorem claim4_type_mismatch_rejected (w : Wrapper) (src tgt bn da : Str)
    (isF ow : Bool) (e : FileEntry)
    (hbn : basenameW w src = .ok bn)
    (hda : toAbsolutePath w (joinW w [tgt, bn]) = .ok da)
    (hent : cacheGet w.fileCache da = some e)
    (hmis : ¬ e.isDirectory = isF) :
    (∃ m, moveExecute w src tgt isF ow = ⟨w, [], .replied false m⟩) ∧
    (∃ m, copyExecute w src tgt isF ow = ⟨w, [], .replied false m⟩) := by
  obtain ⟨a, ha, hba⟩ := basenameW_toAbs hbn
  have hex : existsW w (joinW w [tgt, bn]) = true := by
    unfold existsW
    rw [hda]
    exact cacheHas_of_get hent
  have hstat : statIsDir w (joinW w [tgt, bn]) = .ok e.isDirectory := by
    simp [statIsDir, hda, hent]
  constructor
  · obtain ⟨o1, h1⟩ := check1_total w src tgt bn isF ha
    cases o1 with
    | some msg =>
      exact ⟨msg, by simp [moveExecute, hbn, h1]⟩
    | none =>
      obtain ⟨o2, h2⟩ := check2_total w src (joinW w [tgt, bn]) isF ha
      cases o2 with
      | some msg =>
        exact ⟨msg, by simp [moveExecute, hbn, h1, h2]⟩
      | none =>
        obtain ⟨o3, h3⟩ := check3_total w tgt
        cases o3 with
        | some msg =>
          exact ⟨"Failed to drop: ".toList ++ msg,
            by simp [moveExecute, hbn, h1, h2, h3]⟩
        | none =>
          cases isF with
          | true =>
            have hdir : e.isDirectory = false := by
              cases hd : e.isDirectory with
              | true => exact absurd hd hmis
              | false => rfl
            have h4 := @checkFolderMoveOverwrite_mismatch w
              (joinW w [tgt, bn]) bn ow hex (hdir ▸ hstat)
            exact ⟨"Cannot overwrite file \"".toList ++ bn ++
              "\" with folder.".toList,
              by simp [moveExecute, hbn, h1, h2, h3, h4]⟩
          | false =>
            have hdir : e.isDirectory = true := by
              cases hd : e.isDirectory with
              | false => exact absurd hd hmis
              | true => rfl
            have h4 := @checkFileMoveOverwrite_mismatch w
              (joinW w [tgt, bn]) bn ow hex (hdir ▸ hstat)
            exact ⟨"Cannot overwrite folder \"".toList ++ bn ++
              "\" with file.".toList,
              by simp [moveExecute, hbn, h1, h2, h3, h4]⟩
  · have hocc := @copyOccupiedStep_mismatch w (joinW w [tgt, bn])
      isF ow e.isDirectory hex hstat hmis
    by_cases h1 : isRootFolder w src = true
    · exact (claim2_root_source_rejected w src tgt isF ow h1).2
    · by_cases h2 : isF = true ∧ (src = joinW w [tgt, bn] ∨
        strHasPre (src ++ ['/']) (joinW w [tgt, bn]) = true)
      · exact ⟨"Failed to copy folder.".toList,
          by simp [copyExecute, hbn, h1, h2]⟩
      · exact ⟨"Cannot overwrite ".toList ++ typeName e.isDirectory ++
          " with ".toList ++ typeName isF ++ ".".toList,
          by simp [copyExecute, hbn, h1, h2, hocc]⟩

/-- The default store extended with a directory named
`LocalSpace/x.snippet`, realizing the spec's type-mismatch scenario. -/
def mismatchWrapper : Wrapper :=
  { sampleWrapper with fileCache := sampleWrapper.fileCache ++
      [("/mock/root/LocalSpace/x.snippet".toList, ⟨[], true⟩)] }

/-- C4, witness: the spec scenario - moving the file
`Drafts/sub/x.snippet` into `LocalSpace` where `LocalSpace/x.snippet`
already exists as a directory - through the type-mismatch theorem, with
the overwrite flag set. -/
theorem claim4_type_mismatch_rejected_witness :
    (∃ m, moveExecute mismatchWrapper ("Drafts/sub/x.snippet".toList)
      ("LocalSpace".toList) false true =
      ⟨mismatchWrapper, [], .replied false m⟩) ∧
    (∃ m, copyExecute mismatchWrapper ("Drafts/sub/x.snippet".toList)
      ("LocalSpace".toList) false true =
      ⟨mismatchWrapper, [], .replied false m⟩) :=
  claim4_type_mismatch_rejected mismatchWrapper
    ("Drafts/sub/x.snippet".toList) ("LocalSpace".toList)
    ("x.snippet".toList) ("/mock/root/LocalSpace/x.snippet".toList)
    false true ⟨[], true⟩ rfl rfl rfl (by decide)

end Snippetor

namespace Snippetor

theorem cacheSet_has_self (c : Cache) (k : Str) (v : FileEntry) :
    cacheHas (cacheSet c k v) k = true := by
  unfold cacheSet
  by_cases hhas : cacheHas c k = true
  · rw [if_pos hhas]
    unfold cacheHas at hhas ⊢
    rw [List.any_eq_true] at hhas ⊢
    obtain ⟨x, hx, hpx⟩ := hhas
    refine ⟨(k, v), ?_, by simp⟩
    rw [List.mem_map]
    exact ⟨x, hx, by rw [if_pos (by simpa using hpx)]⟩
  · rw [if_neg hhas]
    unfold cacheHas
    rw [List.any_eq_true]
    exact ⟨(k, v), List.mem_append_right _ (by simp), by simp⟩

theorem cacheHas_set_mono {c : Cache} {k : Str} (k' : Str) (v : FileEntry)
    (h : cacheHas c k = true) : cacheHas (cacheSet c k' v) k = true := by
  by_cases hkk : k = k'
  · subst hkk
    exact cacheSet_has_self c k v
  · unfold cacheSet
    by_cases hhas : cacheHas c k' = true
    · rw [if_pos hhas]
      unfold cacheHas at h ⊢
      rw [List.any_eq_true] at h ⊢
      obtain ⟨x, hx, hpx⟩ := h
      have hx1 : x.1 = k := by simpa using hpx
      refine ⟨x, ?_, hpx⟩
      rw [List.mem_map]
      exact ⟨x, hx, by rw [if_neg (by rw [hx1]; exact hkk)]⟩
    · rw [if_neg hhas]
      unfold cacheHas at h ⊢
      rw [List.any_eq_true] at h ⊢
      obtain ⟨x, hx, hpx⟩ := h
      exact ⟨x, List.mem_append_left _ hx, hpx⟩

theorem cacheHas_foldl_set {k : Str} (g : Str × FileEntry → Str)
    (children : List (Str × FileEntry)) :
    ∀ c : Cache, cacheHas c k = true →
      cacheHas (children.foldl (fun acc e => cacheSet acc (g e) e.2) c)
        k = true := by
  induction children with
  | nil => exact fun c h => h
  | cons e rest ih =>
    intro c h
    exact ih (cacheSet c (g e) e.2) (cacheHas_set_mono (g e) e.2 h)

theorem toAbsolutePath_fileCache (w : Wrapper) (c : Cache) (rel : Str) :
    toAbsolutePath { w with fileCache := c } rel =
      toAbsolutePath w rel := rfl

theorem copyW_exists {w : Wrapper} {src dst : Str} {w₂ : Wrapper}
    (h : copyW w src dst = .ok w₂) : existsW w₂ dst = true := by
  unfold copyW at h
  rcases hsa : toAbsolutePath w src with e | sa
  · simp only [hsa] at h
    exact absurd h (by simp)
  · simp only [hsa] at h
    rcases hda : toAbsolutePath w dst with e | da
    · simp only [hda] at h
      exact absurd h (by simp)
    · simp only [hda] at h
      rcases hget : cacheGet w.fileCache sa with _ | ent
      · simp only [hget] at h
        exact absurd h (by simp)
      · simp only [hget] at h
        cases hdir : ent.isDirectory with
        | true =>
          simp only [hdir, if_true, reduceIte] at h
          injection h with h
          subst h
          unfold existsW
          rw [toAbsolutePath_fileCache, hda]
          exact cacheHas_foldl_set _ _ _
            (cacheSet_has_self w.fileCache da ⟨[], true⟩)
        | false =>
          simp only [hdir, Bool.false_eq_true, if_false, reduceIte] at h
          injection h with h
          subst h
          unfold existsW
          rw [toAbsolutePath_fileCache, hda]
          exact cacheSet_has_self _ da _

end Snippetor

namespace Snippetor

theorem overwriteRemovalStep_error_shape {w : Wrapper} {d : Str}
    {ow : Bool} {r : Reply} (h : overwriteRemovalStep w d ow = .error r) :
    (∃ e, r = .threw e) ∨ (∃ m, r = .replied false m) := by
  unfold overwriteRemovalStep at h
  by_cases hc : (existsW w d && ow) = true
  · rw [if_pos hc] at h
    rcases hs : statIsDir w d with e | b
    · simp only [hs] at h
      injection h with h
      exact Or.inl ⟨e, h.symm⟩
    · simp only [hs] at h
      rcases hr : removeW w d true with e | w₂
      · simp only [hr] at h
        injection h with h
        exact Or.inr ⟨_, h.symm⟩
      · simp only [hr] at h
        exact absurd h (by simp)
  · rw [if_neg hc] at h
    exact absurd h (by simp)

theorem moveFinalStep_success_events (w : Wrapper)
    (src tgt dest : Str) (isF ow : Bool) (st : Wrapper)
    (evs : List MutEvent)
    (h : moveFinalStep w src tgt dest isF ow =
      ⟨st, evs, .replied true []⟩) : ∃ ev, evs = [ev] := by
  unfold moveFinalStep at h
  rcases hr : renameW w src dest with e | w₂
  · simp only [hr] at h
    exact absurd h (by simp)
  · simp only [hr] at h
    rcases hb : basenameW w₂ tgt with e | bn2
    · simp only [hb] at h
      exact absurd h (by simp)
    · simp only [hb] at h
      rcases hs : toAbsolutePath w₂ src with e | srcAbs
      · simp only [hs] at h
        exact absurd h (by simp)
      · simp only [hs] at h
        rcases hd : toAbsolutePath w₂ dest with e | dstAbs
        · simp only [hd] at h
          exact absurd h (by simp)
        · simp only [hd] at h
          simp only [ExecResult.mk.injEq] at h
          obtain ⟨h1, h2, h3⟩ := h
          rw [← h2]
          by_cases how : ow = true
          · rw [if_pos how]
            by_cases hex : existsW w₂ dest = true
            · rw [if_pos hex]
              exact ⟨_, rfl⟩
            · rw [if_neg hex]
              exact ⟨_, rfl⟩
          · rw [if_neg how]
            exact ⟨_, rfl⟩

theorem moveExecute_success_events (w : Wrapper) (src tgt : Str)
    (isF ow : Bool) (st : Wrapper) (evs : List MutEvent)
    (h : moveExecute w src tgt isF ow = ⟨st, evs, .replied true []⟩) :
    ∃ ev, evs = [ev] := by
  unfold moveExecute at h
  rcases hbn : basenameW w src with e | bn
  · simp only [hbn] at h
    exact absurd h (by simp)
  · simp only [hbn] at h
    rcases h1 : checkSourceAndDestinationPaths w src tgt bn isF
        with e | o1
    · simp only [h1] at h
      exact absurd h (by simp)
    · cases o1 with
      | some msg =>
        simp only [h1] at h
        exact absurd h (by simp)
      | none =>
        simp only [h1] at h
        rcases h2 : checkSourceDestinationNotEqual w src
            (joinW w [tgt, bn]) isF with e | o2
        · simp only [h2] at h
          exact absurd h (by simp)
        · cases o2 with
          | some msg =>
            simp only [h2] at h
            exact absurd h (by simp)
          | none =>
            simp only [h2] at h
            rcases h3 : checkDestinationExistsAndIsDir w tgt with e | o3
            · simp only [h3] at h
              exact absurd h (by simp)
            · cases o3 with
              | some msg =>
                simp only [h3] at h
                exact absurd h (by simp)
              | none =>
                simp only [h3] at h
                rcases h4 : (if isF = true then
                    checkFolderMoveOverwrite w (joinW w [tgt, bn]) bn ow
                  else
                    checkFileMoveOverwrite w (joinW w [tgt, bn]) bn ow)
                    with e | o4
                · simp only [h4] at h
                  exact absurd h (by simp)
                · cases o4 with
                  | some msg =>
                    simp only [h4] at h
                    exact absurd h (by simp)
                  | none =>
                    simp only [h4] at h
                    rcases h5 : overwriteRemovalStep w
                        (joinW w [tgt, bn]) ow with r | w₁
                    · simp only [h5] at h
                      rcases overwriteRemovalStep_error_shape h5
                          with ⟨e, rfl⟩ | ⟨m, rfl⟩
                      · exact absurd h (by simp)
                      · exact absurd h (by simp)
                    · simp only [h5] at h
                      exact moveFinalStep_success_events w₁ src tgt
                        (joinW w [tgt, bn]) isF ow st evs h

end Snippetor

namespace Snippetor

theorem copyOccupiedStep_error_shape {w : Wrapper} {d : Str}
    {isF ow : Bool} {r : Reply}
    (h : copyOccupiedStep w d isF ow = .error r) :
    (∃ e, r = .threw e) ∨ (∃ m, r = .replied false m) := by
  unfold copyOccupiedStep at h
  by_cases hc : existsW w d = true
  · rw [if_pos hc] at h
    rcases hs : statIsDir w d with e | b
    · simp only [hs] at h
      injection h with h
      exact Or.inl ⟨e, h.symm⟩
    · simp only [hs] at h
      by_cases hne : b ≠ isF
      · rw [if_pos hne] at h
        injection h with h
        exact Or.inr ⟨_, h.symm⟩
      · rw [if_neg hne] at h
        by_cases how : ow = true
        · rw [if_neg (by simp [how])] at h
          rcases hr : removeW w d true with e | w₂
          · simp only [hr] at h
            injection h with h
            exact Or.inr ⟨_, h.symm⟩
          · simp only [hr] at h
            exact absurd h (by simp)
        · rw [if_pos (by simp [Bool.eq_false_iff.mpr how])] at h
          injection h with h
          exact Or.inr ⟨_, h.symm⟩
  · rw [if_neg hc] at h
    exact absurd h (by simp)

theorem copyExecute_success_events (w : Wrapper) (src tgt : Str)
    (isF ow : Bool) (st : Wrapper) (evs : List MutEvent)
    (h : copyExecute w src tgt isF ow = ⟨st, evs, .replied true []⟩) :
    (ow = true → ∃ da, evs = [MutEvent.overwritten da isF]) ∧
    (ow = false → evs = []) := by
  unfold copyExecute at h
  rcases hbn : basenameW w src with e | bn
  · simp only [hbn] at h
    exact absurd h (by simp)
  · simp only [hbn] at h
    by_cases hroot : isRootFolder w src = true
    · rw [if_pos hroot] at h
      exact absurd h (by simp)
    · rw [if_neg hroot] at h
      by_cases hcont : isF = true ∧ (src = joinW w [tgt, bn] ∨
          strHasPre (src ++ ['/']) (joinW w [tgt, bn]) = true)
      · rw [if_pos hcont] at h
        exact absurd h (by simp)
      · rw [if_neg hcont] at h
        rcases hocc : copyOccupiedStep w (joinW w [tgt, bn]) isF ow
            with r | w₁
        · simp only [hocc] at h
          rcases copyOccupiedStep_error_shape hocc
              with ⟨e, rfl⟩ | ⟨m, rfl⟩
          · exact absurd h (by simp)
          · exact absurd h (by simp)
        · simp only [hocc] at h
          unfold copyFinalStep at h
          rcases hcp : copyW w₁ src (joinW w [tgt, bn]) with e | w₂
          · simp only [hcp] at h
            exact absurd h (by simp)
          · simp only [hcp] at h
            rcases hb2 : basenameW w₂ tgt with e | bn2
            · simp only [hb2] at h
              exact absurd h (by simp)
            · simp only [hb2] at h
              rcases hd2 : toAbsolutePath w₂ (joinW w [tgt, bn])
                  with e | da
              · simp only [hd2] at h
                exact absurd h (by simp)
              · simp only [hd2] at h
                simp only [ExecResult.mk.injEq] at h
                obtain ⟨h1, h2, h3⟩ := h
                constructor
                · intro how
                  subst how
                  have hex : existsW w₂ (joinW w [tgt, bn]) = true :=
                    copyW_exists hcp
                  rw [← h2, if_pos (by simp [hex])]
                  exact ⟨da, rfl⟩
                · intro how
                  subst how
                  rw [← h2, if_neg (by simp)]

theorem removeExecute_success_events (w : Wrapper) (fp : Str)
    (rIsF : Bool) (st : Wrapper) (evs : List MutEvent)
    (h : removeExecute w fp rIsF true = ⟨st, evs, .replied true []⟩) :
    ∃ abs, toAbsolutePath w fp = .ok abs ∧
      evs = [MutEvent.removed abs rIsF] := by
  unfold removeExecute at h
  rw [if_pos rfl] at h
  rcases ha : toAbsolutePath w fp with e | abs
  · simp only [ha] at h
    exact absurd h (by simp)
  · simp only [ha] at h
    rcases hr : removeW w fp true with e | w₂
    · simp only [hr] at h
      exact absurd h (by simp)
    · simp only [hr] at h
      simp only [ExecResult.mk.injEq] at h
      exact ⟨abs, rfl, h.2.1.symm⟩

/-- C5 (amended): when the validation gates pass and the physical step
succeeds (a success reply), a Move emits exactly one mutation event and
a confirmed Remove emits exactly the Removed event carrying its resolved
physical path and directory flag; a Copy emits exactly one Overwritten
event when the overwrite flag is set and, contrary to the original
claim, no event at all otherwise (see the counterexample). -/
theorem claim5_one_event_amended (w : Wrapper) (src tgt fp : Str)
    (isF ow rIsF : Bool) :
    (∀ st evs, moveExecute w src tgt isF ow =
        ⟨st, evs, .replied true []⟩ → ∃ ev, evs = [ev]) ∧
    (∀ st evs, copyExecute w src tgt isF ow =
        ⟨st, evs, .replied true []⟩ →
      (ow = true → ∃ da, evs = [MutEvent.overwritten da isF]) ∧
      (ow = false → evs = [])) ∧
    (∀ st evs, removeExecute w fp rIsF true =
        ⟨st, evs, .replied true []⟩ →
      ∃ abs, toAbsolutePath w fp = .ok abs ∧
        evs = [MutEvent.removed abs rIsF]) :=
  ⟨fun st evs h => moveExecute_success_events w src tgt isF ow st evs h,
   fun st evs h => copyExecute_success_events w src tgt isF ow st evs h,
   fun st evs h => removeExecute_success_events w fp rIsF st evs h⟩

/-- C5, counterexample: a Copy whose gates pass and whose physical copy
succeeds (success reply) with the overwrite flag unset emits no mutation
event at all, where the claim demands exactly one. -/
theorem claim5_copy_no_event_counterexample :
    (copyExecute sampleWrapper ("Drafts/a.snippet".toList)
      ("LocalSpace".toList) false false).reply = .replied true [] ∧
    (copyExecute sampleWrapper ("Drafts/a.snippet".toList)
      ("LocalSpace".toList) false false).events = [] :=
  ⟨rfl, rfl⟩

/-- C5, witness: the amended event theorem applied at a successful Move
(`Drafts/sub/x.snippet` into `LocalSpace/inner`), a successful
overwrite-flagged Copy (`Drafts/a.snippet` into `LocalSpace`), and a
confirmed successful Remove (`Drafts/a.snippet`). -/
theorem claim5_one_event_amended_witness :
    (∃ ev, (moveExecute sampleWrapper ("Drafts/sub/x.snippet".toList)
      ("LocalSpace/inner".toList) false false).events = [ev]) ∧
    (∃ da, (copyExecute sampleWrapper ("Drafts/a.snippet".toList)
      ("LocalSpace".toList) false true).events =
        [MutEvent.overwritten da false]) ∧
    (∃ abs, toAbsolutePath sampleWrapper ("Drafts/a.snippet".toList) =
        .ok abs ∧
      (removeExecute sampleWrapper ("Drafts/a.snippet".toList) false
        true).events = [MutEvent.removed abs false]) := by
  refine ⟨?_, ?_, ?_⟩
  · exact (claim5_one_event_amended sampleWrapper
      ("Drafts/sub/x.snippet".toList) ("LocalSpace/inner".toList)
      ("Drafts/a.snippet".toList) false false false).1
      (moveExecute sampleWrapper ("Drafts/sub/x.snippet".toList)
        ("LocalSpace/inner".toList) false false).state
      (moveExecute sampleWrapper ("Drafts/sub/x.snippet".toList)
        ("LocalSpace/inner".toList) false false).events
      (by decide)
  · exact ((claim5_one_event_amended sampleWrapper
      ("Drafts/a.snippet".toList) ("LocalSpace".toList)
      ("Drafts/a.snippet".toList) false true false).2.1
      (copyExecute sampleWrapper ("Drafts/a.snippet".toList)
        ("LocalSpace".toList) false true).state
      (copyExecute sampleWrapper ("Drafts/a.snippet".toList)
        ("LocalSpace".toList) false true).events
      (by decide)).1 rfl
  · exact (claim5_one_event_amended sampleWrapper
      ("Drafts/sub/x.snippet".toList) ("LocalSpace".toList)
      ("Drafts/a.snippet".toList) false false false).2.2
      (removeExecute sampleWrapper ("Drafts/a.snippet".toList) false
        true).state
      (removeExecute sampleWrapper ("Drafts/a.snippet".toList) false
        true).events
      (by decide)

end Snippetor

namespace Snippetor

/-- C8: at the failing input - the file `Drafts/sub/x.snippet` moved
into its own directory `Drafts/sub` with the overwrite flag set - the
in-place-reorder guard does not fire (it compares the source's parent
against the full destination path instead of the destination folder):
the handler deletes the source file as the "existing destination
entry", the physical rename then fails, the source file is lost and no
event is emitted. The claim demands a rejection with no physical
mutation. -/
theorem claim8_inplace_move_bug :
    (moveExecute sampleWrapper ("Drafts/sub/x.snippet".toList)
      ("Drafts/sub".toList) false true).reply =
      .replied false
        ("Move failed: Source path does not exist: Drafts/sub/x.snippet".toList) ∧
    cacheHas (moveExecute sampleWrapper ("Drafts/sub/x.snippet".toList)
      ("Drafts/sub".toList) false true).state.fileCache
      ("/mock/root/Drafts/sub/x.snippet".toList) = false ∧
    (moveExecute sampleWrapper ("Drafts/sub/x.snippet".toList)
      ("Drafts/sub".toList) false true).events = [] :=
  ⟨rfl, rfl, rfl⟩

/-- C9: the disk backend's `remove` passes `{recursive: true,
force: true}` to `rmSync` no matter what its `recursive` argument says:
called on the non-empty directory `Drafts/sub` with the flag unset it
succeeds and deletes the directory and its descendant, where the claim
(and the repository's own in-memory backend, first conjunct) demand a
failure that leaves the tree unchanged. -/
theorem claim9_remove_recursive_bug :
    removeW sampleWrapper ("Drafts/sub".toList) false =
      .error ("Directory is not empty: Drafts/sub".toList) ∧
    (removeDisk sampleWrapper ("Drafts/sub".toList) false).map
      (fun w₂ => (cacheHas w₂.fileCache ("/mock/root/Drafts/sub".toList),
        cacheHas w₂.fileCache
          ("/mock/root/Drafts/sub/x.snippet".toList))) =
      .ok (false, false) :=
  ⟨rfl, rfl⟩

/-- C10: `exists` never throws - the embedded `existsW` is a total
Boolean function because the source wraps the lookup in a catch-all -
and it returns `false` for every input that `toAbsolutePath` cannot
resolve, the empty string included. -/
theorem claim10_exists_safe (w : Wrapper) (p e : Str)
    (h : toAbsolutePath w p = .error e) :
    existsW w p = false ∧ existsW w [] = false := by
  constructor
  · unfold existsW
    rw [h]
  · unfold existsW toAbsolutePath
    rw [if_pos (Or.inl rfl)]

/-- C10, witness: the safety theorem at the default store and the
unresolvable path `Nope/x` (no configured root is named `Nope`). -/
theorem claim10_exists_safe_witness :
    existsW sampleWrapper ("Nope/x".toList) = false ∧
    existsW sampleWrapper [] = false :=
  claim10_exists_safe sampleWrapper ("Nope/x".toList)
    ("Folder not found in config: Nope".toList) rfl

end Snippetor
